import Mathlib

/-!
Verification of the LWCLab API server helpers (`api/server.mjs`).

The JavaScript helpers are shallowly embedded over `List Char`.  Every
regular expression of the source is hand-compiled to a deterministic
matcher; global `String.replace` is modelled by a leftmost-scan rewriter
(`gsub`), `RegExp.test` by `findSplit`, and `matchAll` by `scanAll`.
Where a greedy sub-pattern is compiled without backtracking, a comment
justifies that backtracking cannot produce a match the deterministic
matcher misses (the character classes involved are pairwise disjoint).
JavaScript `\s` is modelled by its ASCII part.
-/

deriving instance DecidableEq for Except

set_option maxRecDepth 4000

namespace LWCLab

/-- Characters written via code points to keep source text plain. -/
def obr : Char := '\x7b'

/-- Closing brace character. -/
def cbr : Char := '\x7d'

/-- Apostrophe character. -/
def apos : Char := Char.ofNat 39

/-- Newline character. -/
def nlc : Char := '\n'

/-- ASCII part of the JavaScript `\s` character class. -/
def isWs (c : Char) : Bool :=
  c == ' ' || c == '\t' || c == '\n' || c == '\r' || c == '\x0b' || c == '\x0c'

/-- The `[a-z]` character class. -/
def isLowerAZ (c : Char) : Bool := 'a' ≤ c && c ≤ 'z'

/-- The `[A-Z]` character class. -/
def isUpperAZ (c : Char) : Bool := 'A' ≤ c && c ≤ 'Z'

/-- The `[A-Za-z]` character class. -/
def isAlphaAZ (c : Char) : Bool := isLowerAZ c || isUpperAZ c

/-- The `[0-9]` character class. -/
def isDigit09 (c : Char) : Bool := '0' ≤ c && c ≤ '9'

/-- The `\w` character class `[A-Za-z0-9_]`. -/
def isWordC (c : Char) : Bool := isAlphaAZ c || isDigit09 c || c == '_'

/-- The `[\w:-]` character class used for attribute names. -/
def isAttrNameC (c : Char) : Bool := isWordC c || c == ':' || c == '-'

/-- The `[A-Za-z_]` class starting an identifier. -/
def isIdentStart (c : Char) : Bool := isAlphaAZ c || c == '_'

/-- Lower-case an ASCII letter (used for the `i` regex flag). -/
def lowC (c : Char) : Char := if isUpperAZ c then Char.ofNat (c.toNat + 32) else c

/-- Does `pat` lead (begin) the string `s`? -/
def leads : List Char → List Char → Bool
  | [], _ => true
  | _ :: _, [] => false
  | a :: as, b :: bs => a == b && leads as bs

/-- Case-insensitive variant of `leads`. -/
def leadsCI : List Char → List Char → Bool
  | [], _ => true
  | _ :: _, [] => false
  | a :: as, b :: bs => lowC a == lowC b && leadsCI as bs

/-- Match the literal `pat` and return the rest of the input. -/
def lit (pat s : List Char) : Option (List Char) :=
  if leads pat s then some (s.drop pat.length) else none

/-- Case-insensitive literal match. -/
def litCI (pat s : List Char) : Option (List Char) :=
  if leadsCI pat s then some (s.drop pat.length) else none

/-- Match one specific character. -/
def chr (c : Char) : List Char → Option (List Char)
  | d :: ds => if d == c then some ds else none
  | [] => none

/-- Greedy `\s*`. -/
def wsStar (s : List Char) : List Char := s.dropWhile isWs

/-- Greedy `\s+`. -/
def wsPlus : List Char → Option (List Char)
  | c :: cs => if isWs c then some (cs.dropWhile isWs) else none
  | [] => none

/-- Greedy `\s+` keeping the consumed run (for reconstructing `$&`). -/
def wsPlusTok : List Char → Option (List Char × List Char)
  | c :: cs => if isWs c then some (c :: cs.takeWhile isWs, cs.dropWhile isWs) else none
  | [] => none

/-- Greedy `\s*` keeping the consumed run. -/
def wsStarTok (s : List Char) : List Char × List Char :=
  (s.takeWhile isWs, s.dropWhile isWs)

/-- Greedy one-or-more repetition of a character class, returning the token. -/
def cls1 (p : Char → Bool) : List Char → Option (List Char × List Char)
  | c :: cs => if p c then some (c :: cs.takeWhile p, cs.dropWhile p) else none
  | [] => none

/-- Greedy `[A-Za-z_]\w*` identifier token. -/
def identTok : List Char → Option (List Char × List Char)
  | c :: cs =>
    if isIdentStart c then some (c :: cs.takeWhile isWordC, cs.dropWhile isWordC) else none
  | [] => none

/-- Concatenate a list of strings (JavaScript `join('')`). -/
def catLists : List (List Char) → List Char
  | [] => []
  | l :: ls => l ++ catLists ls

/-- Leftmost search: split `s` as `prefixPart ++ t` where the matcher first
succeeds on the suffix `t`. -/
def findSplit (m : List Char → Option α) : List Char → Option (List Char × α)
  | [] => (m []).map (fun a => ([], a))
  | c :: cs =>
    match m (c :: cs) with
    | some a => some ([], a)
    | none => (findSplit m cs).map (fun pa => (c :: pa.1, pa.2))

/-- Fuel-indexed global replace.  The matcher returns the replacement text
and the rest of the input after the match; unmatched characters are copied.
The `Bool` records whether at least one replacement fired.  With fuel at
least the input length and a matcher that always consumes input the fuel
never runs out. -/
def gsubA (m : List Char → Option (List Char × List Char)) :
    Nat → List Char → List Char × Bool
  | _, [] => ([], false)
  | 0, s => (s, false)
  | fuel + 1, c :: cs =>
    match m (c :: cs) with
    | some (repl, rest) => (repl ++ (gsubA m fuel rest).1, true)
    | none =>
      let p := gsubA m fuel cs
      (c :: p.1, p.2)

/-- Global replace (JavaScript `String.replace` with the `g` flag). -/
def gsub (m : List Char → Option (List Char × List Char)) (s : List Char) :
    List Char × Bool :=
  gsubA m s.length s

/-- Fuel-indexed global scan collecting all matches (JavaScript
`matchAll` / repeated `exec`). -/
def scanAllA (m : List Char → Option (α × List Char)) : Nat → List Char → List α
  | _, [] => []
  | 0, _ => []
  | fuel + 1, c :: cs =>
    match m (c :: cs) with
    | some (a, rest) => a :: scanAllA m fuel rest
    | none => scanAllA m fuel cs

/-- Global scan collecting all matches. -/
def scanAll (m : List Char → Option (α × List Char)) (s : List Char) : List α :=
  scanAllA m s.length s

/-- Remove leading and trailing JavaScript whitespace (`String.trim`). -/
def trimWs (s : List Char) : List Char :=
  ((s.dropWhile isWs).reverse.dropWhile isWs).reverse

/-- Collapse every whitespace run to a single space:
`String.replace(/\s+/g, ' ')`. -/
def collapseGo (prevWs : Bool) : List Char → List Char
  | [] => []
  | c :: cs =>
    if isWs c then
      if prevWs then collapseGo true cs else ' ' :: collapseGo true cs
    else c :: collapseGo false cs

/-- Entry point of the whitespace-collapsing rewrite. -/
def collapseWs (s : List Char) : List Char := collapseGo false s

/-!  Matchers for `sanitizeHtml` (`api/server.mjs`, lines 50-106).  -/

/-- The `\b` assertion after `<script`: the next character must not be a
word character (or the input ends). -/
def bchk : List Char → Option (List Char)
  | [] => some []
  | c :: cs => if isWordC c then none else some (c :: cs)

/-- Lazy scan `[\s\S]*?` up to a case-insensitive literal; returns the rest
after the literal. -/
def seekCI (pat : List Char) : List Char → Option (List Char)
  | [] => none
  | c :: cs =>
    if leadsCI pat (c :: cs) then some ((c :: cs).drop pat.length)
    else seekCI pat cs

/-- Matcher of `/<script\b[^>]*>[\s\S]*?<\/script>/gi` (line 54); the
replacement is empty.  `[^>]*` greedily runs to the first `>`, which is
the unique way this sub-pattern can match. -/
def scriptM (s : List Char) : Option (List Char × List Char) := do
  let s1 ← litCI "<script".data s
  let s2 ← bchk s1
  let s3 ← chr '>' (s2.dropWhile (fun c => !(c == '>')))
  let s4 ← seekCI ("</script>".data) s3
  some ([], s4)

/-- Quote-escaping of the merged static class text (line 59).  In the
source the replacement string is the template text `'\"'`, which cooks to
a plain double quote, so the substitution maps `"` to `"` and is the
identity on every character. -/
def escQuote (s : List Char) : List Char :=
  s.map (fun c => if c == '"' then '"' else c)

/-- Replacement text built by `mergeClassAttributes` (lines 56-62):
`class={mergeClasses("<cleaned static>", <trimmed dynamic>)}`. -/
def mergedRepl (staticPart dynamicPart : List Char) : List Char :=
  "class=".data ++ [obr] ++ "mergeClasses(\"".data
    ++ escQuote (trimWs (collapseWs staticPart))
    ++ "\", ".data ++ trimWs dynamicPart ++ ")".data ++ [cbr]

/-- Lazy `(.+?)}(\s|>)` of the static-then-dynamic merge regex (line 64):
the shortest non-empty newline-free text followed by `}` and one
whitespace-or-`>` character.  Returns (text, that character, rest). -/
def lazyBrace1 : List Char → Option (List Char × Char × List Char)
  | [] => none
  | c :: cs =>
    if c == '\n' || c == '\r' then none
    else
      match cs with
      | x :: y :: rest =>
        if x == cbr && (isWs y || y == '>') then some ([c], y, rest)
        else (lazyBrace1 cs).map (fun r => (c :: r.1, r.2.1, r.2.2))
      | _ => (lazyBrace1 cs).map (fun r => (c :: r.1, r.2.1, r.2.2))

/-- Matcher of `/class="([^"]+)"\s+class={(.+?)}(\s|>)/g` (line 64); the
replacement re-emits the captured tail character (line 67). -/
def clsSDM (s : List Char) : Option (List Char × List Char) := do
  let s1 ← lit "class=\"".data s
  let (staticPart, s2) ← cls1 (fun c => !(c == '"')) s1
  let s3 ← chr '"' s2
  let s4 ← wsPlus s3
  let s5 ← lit ("class=".data ++ [obr]) s4
  let (dy, tc, s6) ← lazyBrace1 s5
  some (mergedRepl staticPart dy ++ [tc], s6)

/-- Continuation after `(.+?)}` in the dynamic-then-static regex
(line 65): `\s+class="([^"]+)"(\s|>)`. -/
def contDS (s : List Char) : Option (List Char × Char × List Char) := do
  let s1 ← wsPlus s
  let s2 ← lit "class=\"".data s1
  let (staticPart, s3) ← cls1 (fun c => !(c == '"')) s2
  let s4 ← chr '"' s3
  match s4 with
  | y :: rest => if isWs y || y == '>' then some (staticPart, y, rest) else none
  | [] => none

/-- Lazy `(.+?)}` of the dynamic-then-static regex with its full
continuation check. -/
def lazyBrace2 : List Char → Option (List Char × (List Char × Char × List Char))
  | [] => none
  | c :: cs =>
    if c == '\n' || c == '\r' then none
    else
      match cs with
      | x :: rest =>
        if x == cbr then
          match contDS rest with
          | some r => some ([c], r)
          | none => (lazyBrace2 cs).map (fun q => (c :: q.1, q.2))
        else (lazyBrace2 cs).map (fun q => (c :: q.1, q.2))
      | [] => none

/-- Matcher of `/class={(.+?)}\s+class="([^"]+)"(\s|>)/g` (line 65). -/
def clsDSM (s : List Char) : Option (List Char × List Char) := do
  let s1 ← lit ("class=".data ++ [obr]) s
  let (dy, staticPart, tc, rest) ← lazyBrace2 s1
  some (mergedRepl staticPart dy ++ [tc], rest)

/-- Canonical event binding `on$1={$2}` emitted by the four event-syntax
rewrites (lines 71-79). -/
def canonEvt (ev handler : List Char) : List Char :=
  "on".data ++ ev ++ ['='] ++ [obr] ++ handler ++ [cbr]

/-- Optional empty call-parameter group `(?:\(\s*\))?`.  Committing to the
group whenever a `(` is present is faithful: the pattern continues with
`\s*"`, which can never begin at a `(`. -/
def parenOpt : List Char → Option (List Char)
  | c :: cs => if c == '(' then chr ')' (wsStar cs) else some (c :: cs)
  | [] => some []

/-- Matcher of `/@\s*([a-z]+)\s*=\s*"([A-Za-z_]\w*)\s*(?:\(\s*\))?\s*"/g`
(line 71).  Greedy tokens need no backtracking: the classes `[a-z]`, `\w`
and `\s` are disjoint from the delimiters that follow them. -/
def evtAtM (s : List Char) : Option (List Char × List Char) := do
  let s1 ← chr '@' s
  let (ev, s2) ← cls1 isLowerAZ (wsStar s1)
  let s3 ← chr '=' (wsStar s2)
  let s4 ← chr '"' (wsStar s3)
  let (h, s5) ← identTok s4
  let s6 ← parenOpt (wsStar s5)
  let s7 ← chr '"' (wsStar s6)
  some (canonEvt ev h, s7)

/-- Matcher of
`/\(\s*([a-z]+)\s*\)\s*=\s*"([A-Za-z_]\w*)\s*(?:\(\s*\))?\s*"/g`
(line 72). -/
def evtParenM (s : List Char) : Option (List Char × List Char) := do
  let s1 ← chr '(' s
  let (ev, s2) ← cls1 isLowerAZ (wsStar s1)
  let s3 ← chr ')' (wsStar s2)
  let s4 ← chr '=' (wsStar s3)
  let s5 ← chr '"' (wsStar s4)
  let (h, s6) ← identTok s5
  let s7 ← parenOpt (wsStar s6)
  let s8 ← chr '"' (wsStar s7)
  some (canonEvt ev h, s8)

/-- Matcher of `/on([a-z]+)\s*=\s*"\s*([A-Za-z_]\w*)\s*\(\s*\)\s*"/g`
(line 75). -/
def evtQuotParenM (s : List Char) : Option (List Char × List Char) := do
  let s1 ← lit "on".data s
  let (ev, s2) ← cls1 isLowerAZ s1
  let s3 ← chr '=' (wsStar s2)
  let s4 ← chr '"' (wsStar s3)
  let (h, s5) ← identTok (wsStar s4)
  let s6 ← chr '(' (wsStar s5)
  let s7 ← chr ')' (wsStar s6)
  let s8 ← chr '"' (wsStar s7)
  some (canonEvt ev h, s8)

/-- Matcher of `/on([a-z]+)\s*=\s*"\s*([A-Za-z_]\w*)\s*"/g` (line 76). -/
def evtQuotM (s : List Char) : Option (List Char × List Char) := do
  let s1 ← lit "on".data s
  let (ev, s2) ← cls1 isLowerAZ s1
  let s3 ← chr '=' (wsStar s2)
  let s4 ← chr '"' (wsStar s3)
  let (h, s5) ← identTok (wsStar s4)
  let s6 ← chr '"' (wsStar s5)
  some (canonEvt ev h, s6)

/-- Matcher of `/on([a-z]+)\s*=\s*{\s*this\.([A-Za-z_]\w*)\s*}/g`
(line 79). -/
def evtThisM (s : List Char) : Option (List Char × List Char) := do
  let s1 ← lit "on".data s
  let (ev, s2) ← cls1 isLowerAZ s1
  let s3 ← chr '=' (wsStar s2)
  let s4 ← chr obr (wsStar s3)
  let s5 ← lit "this.".data (wsStar s4)
  let (h, s6) ← identTok s5
  let s7 ← chr cbr (wsStar s6)
  some (canonEvt ev h, s7)

/-- Matcher of the final guard `/\son[a-z]+\s*=\s*["']/i` (line 82); the
`i` flag makes the `on` literal and the letter class case-insensitive.
Backtracking out of the greedy letter run cannot help: a shorter run
leaves a letter where `\s*=` must match. -/
def guardM (s : List Char) : Option Unit := do
  let s1 ←
    match s with
    | c :: cs => if isWs c then some cs else none
    | [] => none
  let s2 ← litCI "on".data s1
  let (_, s3) ← cls1 isAlphaAZ s2
  let s4 ← chr '=' (wsStar s3)
  match wsStar s4 with
  | q :: _ => if q == '"' || q == apos then some () else none
  | [] => none

/-- The test of the final guard (line 82). -/
def guardTest (s : List Char) : Bool := (findSplit guardM s).isSome

/-- Matcher of the start-tag scan `/<([a-zA-Z](?:[\w:-]*))([^<]*?)>/g`
(line 86), returning the attribute chunk (second group) and the rest.
The greedy tag-name run followed by the lazy `[^<]*?>` succeeds exactly
when a `>` occurs before any `<` after the name. -/
def tagM (s : List Char) : Option (List Char × List Char) := do
  let s1 ← chr '<' s
  match s1 with
  | c :: cs =>
    if isAlphaAZ c then
      let body := cs.dropWhile isAttrNameC
      let chunk := body.takeWhile (fun d => !(d == '>') && !(d == '<'))
      match body.dropWhile (fun d => !(d == '>') && !(d == '<')) with
      | d :: r2 => if d == '>' then some (chunk, r2) else none
      | [] => none
    else none
  | [] => none

/-- All attribute chunks of the input, in order (the `while` loop of
lines 87-103). -/
def tagChunks (s : List Char) : List (List Char) := scanAll tagM s

/-- Backtracking search for the longest run prefix whose lookahead
`(?=\s*=)` succeeds; `accRev` is the reversed remaining candidate. -/
def attrTry : List Char → List Char → Option (List Char × List Char)
  | [], _ => none
  | a :: accRev, rest =>
    match wsStar rest with
    | e :: _ =>
      if e == '=' then some ((a :: accRev).reverse, rest)
      else attrTry accRev (a :: rest)
    | [] => attrTry accRev (a :: rest)

/-- Matcher of the attribute-name scan `/(\w[\w:-]*)(?=\s*=)/g`
(line 94): a greedy `[\w:-]*` run after a `\w` start, shrunk from the
right until the zero-width `\s*=` lookahead holds. -/
def attrNameM : List Char → Option (List Char × List Char)
  | c :: cs =>
    if isWordC c then
      attrTry (c :: cs.takeWhile isAttrNameC).reverse (cs.dropWhile isAttrNameC)
    else none
  | [] => none

/-- Attribute names of one chunk, in scan order. -/
def attrNames (chunk : List Char) : List (List Char) := scanAll attrNameM chunk

/-- First repeated name, via the `seen` set of lines 93-102. -/
def firstDup : List (List Char) → List (List Char) → Option (List Char)
  | _, [] => none
  | seen, n :: ns => if n ∈ seen then some n else firstDup (n :: seen) ns

/-- Scan the chunks in order for a repeated attribute name. -/
def dupScanChunks : List (List Char) → Option (List Char)
  | [] => none
  | ch :: rest =>
    match firstDup [] (attrNames ch) with
    | some n => some n
    | none => dupScanChunks rest

/-- The duplicate-attribute scan of lines 86-103.  An empty chunk is
skipped by the source (`if (!attrChunk) continue`); it yields no names
here, which is equivalent. -/
def dupScan (s : List Char) : Option (List Char) := dupScanChunks (tagChunks s)

/-- Error message of line 83. -/
def inlineMsg : List Char :=
  "Inline event handlers must use LWC syntax, e.g. onclick=".data
    ++ [obr] ++ "handleClick".data ++ [cbr] ++ ".".data

/-- Error message of line 99. -/
def dupMsg (n : List Char) : List Char :=
  "Duplicate attribute \"".data ++ n ++ "\" detected in HTML.".data

/-- The whole `sanitizeHtml` pipeline (lines 50-106).  On success it
returns the trimmed markup and the `info.mergeClasses` flag; the errors
carry the thrown messages. -/
def sanitizeHtml (html : List Char) : Except (List Char) (List Char × Bool) :=
  let s0 := (gsub scriptM html).1
  let p1 := gsub clsSDM s0
  let p2 := gsub clsDSM p1.1
  let merged := p1.2 || p2.2
  let s3 := (gsub evtAtM p2.1).1
  let s4 := (gsub evtParenM s3).1
  let s5 := (gsub evtQuotParenM s4).1
  let s6 := (gsub evtQuotM s5).1
  let s7 := (gsub evtThisM s6).1
  if guardTest s7 then .error inlineMsg
  else
    match dupScan s7 with
    | some n => .error (dupMsg n)
    | none => .ok (trimWs s7, merged)

/-- The string `s7` the final guard and the duplicate scan inspect: the
markup after the script strip, the class merges and the four
event-binding rewrites. -/
def afterEventPasses (html : List Char) : List Char :=
  let s0 := (gsub scriptM html).1
  let p1 := gsub clsSDM s0
  let p2 := gsub clsDSM p1.1
  let s3 := (gsub evtAtM p2.1).1
  let s4 := (gsub evtParenM s3).1
  let s5 := (gsub evtQuotParenM s4).1
  let s6 := (gsub evtQuotM s5).1
  (gsub evtThisM s6).1

/-!  `ensureMergeClasses` and `ensureHandlerStubs`
(`api/server.mjs`, lines 108-130 and 149-163).  -/

/-- Zero-width check that after optional whitespace a `(` follows. -/
def callTail (r : List Char) : Bool :=
  match wsStar r with
  | c :: _ => c == '('
  | [] => false

/-- Scanner for `new RegExp('\\b' + name + '\\s*\\(')` applied to a plain
identifier `name`: a position is a `\b` boundary exactly when it is the
start of the input or the previous character is not a word character
(identifiers begin with a word character, so the boundary test reduces to
the previous character). -/
def hasCallGo (name : List Char) : Bool → List Char → Bool
  | bnd, c :: cs =>
    (bnd && leads name (c :: cs) && callTail ((c :: cs).drop name.length))
      || hasCallGo name (!isWordC c) cs
  | _, [] => false

/-- Test of `\b<name>\s*\(` on `js` for an identifier `name`. -/
def hasWordCall (name js : List Char) : Bool := hasCallGo name true js

/-- Matcher of the class-header regex
`/export\s+default\s+class\s+Preview\s+extends\s+LightningElement\s*{/`
(lines 113 and 151), returning the matched text (for `$1` / `m`) and the
rest. -/
def headerM (s : List Char) : Option (List Char × List Char) := do
  let r1 ← lit "export".data s
  let (w1, r2) ← wsPlusTok r1
  let r3 ← lit "default".data r2
  let (w2, r4) ← wsPlusTok r3
  let r5 ← lit "class".data r4
  let (w3, r6) ← wsPlusTok r5
  let r7 ← lit "Preview".data r6
  let (w4, r8) ← wsPlusTok r7
  let r9 ← lit "extends".data r8
  let (w5, r10) ← wsPlusTok r9
  let r11 ← lit "LightningElement".data r10
  let (w6, r12) := wsStarTok r11
  let r13 ← chr obr r12
  some ("export".data ++ w1 ++ "default".data ++ w2 ++ "class".data ++ w3
        ++ "Preview".data ++ w4 ++ "extends".data ++ w5
        ++ "LightningElement".data ++ w6 ++ [obr], r13)

/-- Leftmost class-header occurrence: `js = pre ++ matched ++ rest`. -/
def headerFind (js : List Char) : Option (List Char × (List Char × List Char)) :=
  findSplit headerM js

/-- `classHeaderRe.test`. -/
def headerTest (js : List Char) : Bool := (headerFind js).isSome

/-- The helper text injected by `ensureMergeClasses` (lines 118-127).
The source builds it as a JavaScript template literal; the `\"` and `\s`
escapes inside it cook to plain `"` and `s`, which is reproduced here
verbatim. -/
def helperBody : List Char :=
  [nlc] ++ "  mergeClasses(...parts) ".data ++ [obr] ++ [nlc]
    ++ "    return parts".data ++ [nlc]
    ++ "      .flat(Infinity)".data ++ [nlc]
    ++ "      .map((value) => (typeof value === ".data ++ [apos]
    ++ "string".data ++ [apos] ++ " ? value.trim() : ".data
    ++ [apos, apos] ++ "))".data ++ [nlc]
    ++ "      .filter(Boolean)".data ++ [nlc]
    ++ "      .join(".data ++ [apos] ++ " ".data ++ [apos] ++ ")".data ++ [nlc]
    ++ "      .replace(/s+/g, ".data ++ [apos] ++ " ".data ++ [apos]
    ++ ");".data ++ [nlc]
    ++ "  ".data ++ [cbr] ++ [nlc]

/-- `ensureMergeClasses` (lines 108-130): no-op when `\bmergeClasses\s*\(`
already occurs or when the class header is absent; otherwise the helper
body is inserted after the first class-header occurrence. -/
def ensureMergeClasses (js : List Char) : List Char :=
  if hasWordCall "mergeClasses".data js then js
  else
    match headerFind js with
    | none => js
    | some (pre, m, rest) => pre ++ m ++ helperBody ++ rest

/-- One handler stub `<name>(event) { /* auto-added */ }\n` (line 159). -/
def stubFor (n : List Char) : List Char :=
  n ++ "(event) ".data ++ [obr] ++ " /* auto-added */ ".data ++ [cbr] ++ [nlc]

/-- Error message of line 153. -/
def stubsErrMsg : List Char :=
  "JS must export class Preview extends LightningElement.".data

/-- `ensureHandlerStubs` (lines 149-163). -/
def ensureHandlerStubs (js : List Char) (names : List (List Char)) :
    Except (List Char) (List Char) :=
  match headerFind js with
  | none => .error stubsErrMsg
  | some (pre, m, rest) =>
    if (names.filter (fun n => !hasWordCall n js)).length > 0 then
      .ok (pre ++ m
        ++ ([nlc]
            ++ catLists ((names.filter (fun n => !hasWordCall n js)).map stubFor)
            ++ [nlc])
        ++ rest)
    else .ok js

/-- Matcher of the handler-reference scan
`/on[a-z]+\s*=\s*{\s*([A-Za-z_]\w*)\s*}/g` (line 396). -/
def handlerRefM (s : List Char) : Option (List Char × List Char) := do
  let s1 ← lit "on".data s
  let (_, s2) ← cls1 isLowerAZ s1
  let s3 ← chr '=' (wsStar s2)
  let s4 ← chr obr (wsStar s3)
  let (h, s5) ← identTok (wsStar s4)
  let s6 ← chr cbr (wsStar s5)
  some (h, s6)

/-- Handler names referenced by the sanitized markup (line 396). -/
def extractHandlerNames (html : List Char) : List (List Char) :=
  scanAll handlerRefM html

/-!  `sanitizeBundleName` and `normalizeTargets`
(`api/server.mjs`, lines 165-185), with the lowercase bundle-name variant
of the dual-provider server configuration.  -/

/-- Anchored test of `^[A-Za-z][A-Za-z0-9_]*$`. -/
def bundleNameOk : List Char → Bool
  | [] => false
  | c :: cs => isAlphaAZ c && cs.all isWordC

/-- Anchored test of `^[a-z][A-Za-z0-9_]*$` (the variant configuration). -/
def bundleNameOkLower : List Char → Bool
  | [] => false
  | c :: cs => isLowerAZ c && cs.all isWordC

/-- `sanitizeBundleName` (lines 165-174): trim, then keep the name only
when it matches the anchored pattern (the empty trimmed name is rejected
by the same fall-through to `''`). -/
def sanitizeBundleName (name : List Char) : List Char :=
  let t := trimWs name
  if bundleNameOk t then t else []

/-- The variant `sanitizeBundleName` with the lowercase-start pattern. -/
def sanitizeBundleNameLower (name : List Char) : List Char :=
  let t := trimWs name
  if bundleNameOkLower t then t else []

/-- `DEFAULT_LWC_TARGETS` (line 22); `ALLOWED_LWC_TARGETS` is the set of
the same three identifiers (line 23). -/
def DEFAULT_LWC_TARGETS : List (List Char) :=
  ["lightning__AppPage".data, "lightning__HomePage".data,
   "lightning__RecordPage".data]

/-- Membership in `ALLOWED_LWC_TARGETS`. -/
def allowedTarget (t : List Char) : Bool := decide (t ∈ DEFAULT_LWC_TARGETS)

/-- Insertion-order deduplication: `Array.from(new Set(xs))`. -/
def jsSetDedup : List (List Char) → List (List Char) → List (List Char)
  | _, [] => []
  | seen, x :: xs =>
    if x ∈ seen then jsSetDedup seen xs else x :: jsSetDedup (x :: seen) xs

/-- `normalizeTargets` (lines 176-185).  The request value is modelled as
`none` when it is not an array, and each array entry as `none` when it is
not a string. -/
def normalizeTargets (targets : Option (List (Option (List Char)))) :
    List (List Char) :=
  let list := targets.getD []
  let filtered :=
    (list.map (fun v =>
        match v with
        | some s => trimWs s
        | none => [])).filter (fun v => !v.isEmpty && allowedTarget v)
  if filtered.length > 0 then jsSetDedup [] filtered else DEFAULT_LWC_TARGETS

/-!  The `/api/deploy` route up to packaging, and the deployment poll loop
(`api/server.mjs`, lines 30-47 and 460-519).  -/

/-- Remote-side actions the deploy route performs after its input checks;
the route performs no job-cancellation action anywhere. -/
inductive DeployAction
  | buildZip (name : List Char)
  | login
  | submitDeploy
  deriving DecidableEq, Repr

/-- Responses of the modelled deploy-route fragment. -/
inductive DeployResp
  | missingCreds
  | badName (msg : List Char)
  | noFiles
  | proceed (bundle : List Char) (targets : List (List Char))
  deriving DecidableEq, Repr

/-- Client error of line 468. -/
def badNameMsg : List Char :=
  "Enter a valid Lightning web component name (letters, numbers, underscores; must start with a letter).".data

/-- The input-validation stage of the `/api/deploy` route (lines 460-488):
credentials, bundle name, targets and stored files are checked in this
order, and only then the archive is built, the login performed and the
deployment submitted. -/
def deployHandler (username password bundleName : List Char)
    (targets : Option (List (Option (List Char)))) (filesPresent : Bool) :
    DeployResp × List DeployAction :=
  if username.isEmpty || password.isEmpty then (.missingCreds, [])
  else
    let nb := sanitizeBundleName bundleName
    if nb.isEmpty then (.badName badNameMsg, [])
    else
      let nt := normalizeTargets targets
      if !filesPresent then (.noFiles, [])
      else (.proceed nb nt, [.buildZip nb, .login, .submitDeploy])

/-- Remote deploy-job status as observed by one poll
(`checkDeployStatus`). -/
structure DeployStatus where
  done : Bool
  success : Bool
  deriving DecidableEq, Repr

/-- Timeout message of line 46. -/
def timeoutMsg : List Char :=
  "Deployment timed out while waiting for Salesforce to finish.".data

/-- Error message of line 32. -/
def missingIdMsg : List Char := "Missing deployment id.".data

/-- The `while (Date.now() <= deadline)` loop of lines 38-44.  `polls k`
is the status returned by the `k`-th `checkDeployStatus` call; a poll is
instantaneous and `sleep(pollIntervalMs)` advances the clock `t` by the
interval.  The returned list records the times at which polls were
performed.  The fuel only bounds the recursion; with fuel at least
`timeout / interval + 1` and a positive interval, the fuel branch is
unreachable. -/
def pollLoop (polls : Nat → DeployStatus) (interval deadline : Nat) :
    Nat → Nat → Nat → Except (List Char) DeployStatus × List Nat
  | fuel, t, k =>
    if t ≤ deadline then
      match fuel with
      | 0 => (.error [], [])
      | fuel' + 1 =>
        let r := polls k
        if r.done then (.ok r, [t])
        else
          let p := pollLoop polls interval deadline fuel' (t + interval) (k + 1)
          (p.1, t :: p.2)
    else (.error timeoutMsg, [])

/-- `waitForDeployCompletion` (lines 30-47), started at time `t0` with the
deadline `t0 + timeoutMs`.  `hasId` models the truthiness of `deployId`. -/
def waitForDeployCompletion (hasId : Bool) (polls : Nat → DeployStatus)
    (timeoutMs intervalMs t0 : Nat) :
    Except (List Char) DeployStatus × List Nat :=
  if !hasId then (.error missingIdMsg, [])
  else pollLoop polls intervalMs (t0 + timeoutMs) (timeoutMs / intervalMs + 1) t0 0

/-- The filtering stage of `normalizeTargets` (lines 178-180), split out so
properties can speak about the intermediate list. -/
def filteredTargets (list : List (Option (List Char))) : List (List Char) :=
  (list.map (fun v =>
      match v with
      | some s => trimWs s
      | none => [])).filter (fun v => !v.isEmpty && allowedTarget v)

/-!  Inputs and outputs of the event-binding dialect family (claim C2).
Each dialect input is a minimal `<p …></p>` element carrying one binding
of event `E` to handler `H`; `b` turns the trailing empty call-parameter
list `()` on or off where the source regex accepts it.  -/

/-- Optional empty call-parameter list after the handler name. -/
def parenSfx (b : Bool) : List Char := if b then "()".data else []

/-- `@E="H"` / `@E="H()"` in a minimal element (line 71's dialect). -/
def dialectAt (E H : List Char) (b : Bool) : List Char :=
  "<p ".data ++ '@' :: (E ++ '=' :: '"' :: (H ++ parenSfx b ++ '"' :: "></p>".data))

/-- `(E)="H"` / `(E)="H()"` in a minimal element (line 72's dialect). -/
def dialectParen (E H : List Char) (b : Bool) : List Char :=
  "<p ".data
    ++ '(' :: (E ++ ')' :: '=' :: '"' :: (H ++ parenSfx b ++ '"' :: "></p>".data))

/-- `onE="H"` / `onE="H()"` in a minimal element (lines 75-76's dialect). -/
def dialectQuot (E H : List Char) (b : Bool) : List Char :=
  "<p ".data
    ++ "on".data ++ (E ++ '=' :: '"' :: (H ++ parenSfx b ++ '"' :: "></p>".data))

/-- `onE={this.H}` in a minimal element (line 79's dialect). -/
def dialectThis (E H : List Char) : List Char :=
  "<p ".data
    ++ "on".data ++ (E ++ '=' :: obr :: ("this.".data ++ H ++ cbr :: "></p>".data))

/-- The canonical element all four conversions produce. -/
def canonOut (E H : List Char) : List Char :=
  "<p ".data ++ canonEvt E H ++ "></p>".data

/-- Every character of the input satisfying `t` is followed by a character
failing `bad`; a final character has no successor to constrain. -/
def noFollow (t bad : Char → Bool) : List Char → Bool
  | c :: w :: rest => (!(t c) || !(bad w)) && noFollow t bad (w :: rest)
  | _ => true

/-!  Generic lemmas about the scanning combinators.  -/

theorem leads_iff {p s : List Char} : leads p s = true ↔ ∃ r, s = p ++ r := by
  induction p generalizing s with
  | nil => simp [leads]
  | cons a as ih =>
    cases s with
    | nil => simp [leads]
    | cons b bs =>
      simp only [leads, Bool.and_eq_true, beq_iff_eq, ih, List.cons_append]
      constructor
      · rintro ⟨rfl, r, rfl⟩; exact ⟨r, rfl⟩
      · rintro ⟨r, h⟩
        injection h with h1 h2
        exact ⟨h1.symm, r, h2⟩

theorem leads_self (p r : List Char) : leads p (p ++ r) = true :=
  leads_iff.mpr ⟨r, rfl⟩

theorem lit_sound {p s r : List Char} (h : lit p s = some r) : s = p ++ r := by
  unfold lit at h
  by_cases hl : leads p s = true
  · obtain ⟨t, rfl⟩ := leads_iff.mp hl
    simp [hl, List.drop_left] at h
    exact h ▸ rfl
  · simp [hl] at h

theorem lit_self (p r : List Char) : lit p (p ++ r) = some r := by
  unfold lit
  simp [leads_self, List.drop_left]

theorem chr_sound {c : Char} {s r : List Char} (h : chr c s = some r) :
    s = c :: r := by
  cases s with
  | nil => simp [chr] at h
  | cons d ds =>
    unfold chr at h
    by_cases hd : d = c
    · subst hd; simp at h; exact h ▸ rfl
    · simp [hd] at h

theorem findSplit_sound {m : List Char → Option α} {s : List Char}
    {p : List Char} {a : α} (h : findSplit m s = some (p, a)) :
    ∃ t, s = p ++ t ∧ m t = some a := by
  induction s generalizing p with
  | nil =>
    unfold findSplit at h
    cases hm : m [] with
    | none => rw [hm] at h; simp at h
    | some b =>
      rw [hm] at h
      simp only [Option.map_some', Option.some.injEq, Prod.mk.injEq] at h
      exact ⟨[], by simp [h.1], by rw [hm, h.2]⟩
  | cons c cs ih =>
    unfold findSplit at h
    cases hm : m (c :: cs) with
    | some b =>
      rw [hm] at h
      simp only [Option.some.injEq, Prod.mk.injEq] at h
      exact ⟨c :: cs, by simp [h.1], by rw [hm, h.2]⟩
    | none =>
      rw [hm] at h
      cases hfs : findSplit m cs with
      | none => rw [hfs] at h; simp at h
      | some pr =>
        rw [hfs] at h
        simp only [Option.map_some', Option.some.injEq, Prod.mk.injEq] at h
        obtain ⟨h1, h2⟩ := h
        obtain ⟨t, ht, hmt⟩ := ih (p := pr.1) (by rw [hfs, ← h2])
        refine ⟨t, ?_, hmt⟩
        rw [← h1, ht, List.cons_append]

theorem findSplit_isSome {m : List Char → Option α} {u t : List Char} {a : α}
    (hm : m t = some a) : (findSplit m (u ++ t)).isSome = true := by
  induction u with
  | nil =>
    cases t with
    | nil => simp [findSplit, hm]
    | cons c cs => simp only [List.nil_append]; unfold findSplit; simp [hm]
  | cons c u ih =>
    simp only [List.cons_append]
    unfold findSplit
    cases hm2 : m (c :: (u ++ t)) with
    | some b => simp
    | none =>
      cases hfs : findSplit m (u ++ t) with
      | none => rw [hfs] at ih; simp at ih
      | some pr => simp

theorem findSplit_none {m : List Char → Option α} {s : List Char}
    (h : ∀ u v, s = u ++ v → m v = none) : findSplit m s = none := by
  induction s with
  | nil => unfold findSplit; rw [h [] [] rfl]; rfl
  | cons c cs ih =>
    unfold findSplit
    rw [h [] (c :: cs) rfl, ih (fun u v hv => h (c :: u) v (by simp [hv]))]
    rfl

theorem gsubA_nil {m : List Char → Option (List Char × List Char)} {f : Nat} :
    gsubA m f [] = ([], false) := by cases f <;> rfl

theorem gsubA_cons_none {m : List Char → Option (List Char × List Char)}
    {f : Nat} {c : Char} {cs : List Char} (h : m (c :: cs) = none) :
    gsubA m (f + 1) (c :: cs) = (c :: (gsubA m f cs).1, (gsubA m f cs).2) := by
  simp [gsubA, h]

theorem gsubA_cons_some {m : List Char → Option (List Char × List Char)}
    {f : Nat} {c : Char} {cs r rest : List Char}
    (h : m (c :: cs) = some (r, rest)) :
    gsubA m (f + 1) (c :: cs) = (r ++ (gsubA m f rest).1, true) := by
  simp [gsubA, h]

theorem gsubA_none_all {m : List Char → Option (List Char × List Char)} :
    ∀ (f : Nat) (s : List Char), (∀ u v, s = u ++ v → v ≠ [] → m v = none) →
    gsubA m f s = (s, false) := by
  intro f s
  induction s generalizing f with
  | nil => intro _; exact gsubA_nil
  | cons c cs ih =>
    intro h
    cases f with
    | zero => rfl
    | succ f =>
      rw [gsubA_cons_none (h [] (c :: cs) rfl (by simp)),
        ih f (fun u v hv hne => h (c :: u) v (by simp [hv]) hne)]

theorem gsub_none {m : List Char → Option (List Char × List Char)}
    {s : List Char} (h : ∀ u v, s = u ++ v → v ≠ [] → m v = none) :
    gsub m s = (s, false) :=
  gsubA_none_all s.length s h

theorem gsubA_fuel {m : List Char → Option (List Char × List Char)}
    (hm : ∀ t r rest, m t = some (r, rest) → rest.length < t.length) :
    ∀ (f g : Nat) (s : List Char), s.length ≤ f → s.length ≤ g →
    gsubA m f s = gsubA m g s := by
  intro f
  induction f with
  | zero =>
    intro g s hf _
    have : s = [] := List.eq_nil_of_length_eq_zero (Nat.le_zero.mp hf)
    subst this
    simp [gsubA_nil]
  | succ f ih =>
    intro g s hf hg
    cases s with
    | nil => simp [gsubA_nil]
    | cons c cs =>
      cases g with
      | zero => simp at hg
      | succ g =>
        simp only [List.length_cons] at hf hg
        cases hmc : m (c :: cs) with
        | none =>
          rw [gsubA_cons_none hmc, gsubA_cons_none hmc,
            ih g cs (by omega) (by omega)]
        | some pr =>
          obtain ⟨r, rest⟩ := pr
          have hr : rest.length < cs.length + 1 := by
            have := hm _ _ _ hmc
            simpa using this
          rw [gsubA_cons_some hmc, gsubA_cons_some hmc,
            ih g rest (by omega) (by omega)]

theorem gsub_decomp {m : List Char → Option (List Char × List Char)}
    (hm : ∀ t r rest, m t = some (r, rest) → rest.length < t.length)
    {A t r rest : List Char}
    (hA : ∀ u v, A ++ t = u ++ v → t.length < v.length → m v = none)
    (hmt : m t = some (r, rest)) :
    gsub m (A ++ t) = (A ++ r ++ (gsub m rest).1, true) := by
  induction A with
  | nil =>
    have hlt : rest.length < t.length := hm _ _ _ hmt
    cases t with
    | nil => simp at hlt
    | cons c cs =>
      simp only [List.length_cons] at hlt
      simp only [List.nil_append]
      unfold gsub
      rw [show (c :: cs).length = cs.length + 1 from rfl, gsubA_cons_some hmt]
      rw [gsubA_fuel hm cs.length rest.length rest (by omega) le_rfl]
  | cons a A ih =>
    have h0 : m (a :: (A ++ t)) = none := by
      apply hA [] (a :: (A ++ t)) rfl
      simp only [List.length_cons, List.length_append]
      omega
    simp only [List.cons_append]
    unfold gsub
    rw [show (a :: (A ++ t)).length = (A ++ t).length + 1 from rfl,
      gsubA_cons_none h0]
    have ihr := ih (fun u v hv hlen => hA (a :: u) v (by simp [hv]) hlen)
    unfold gsub at ihr
    rw [ihr]

theorem gsub_decomp_end {m : List Char → Option (List Char × List Char)}
    (hm : ∀ t r rest, m t = some (r, rest) → rest.length < t.length)
    {A t r rest : List Char}
    (hA : ∀ u v, A ++ t = u ++ v → t.length < v.length → m v = none)
    (hmt : m t = some (r, rest))
    (hrest : ∀ u v, rest = u ++ v → v ≠ [] → m v = none) :
    gsub m (A ++ t) = (A ++ r ++ rest, true) := by
  rw [gsub_decomp hm hA hmt, gsub_none hrest]

/-- Splitting a suffix position across a concatenation. -/
theorem suffix_split {A B u v : List Char} (h : A ++ B = u ++ v) :
    (∃ w, A = u ++ w ∧ v = w ++ B) ∨ (∃ w, u = A ++ w ∧ B = w ++ v) := by
  rcases List.append_eq_append_iff.mp h with ⟨w, hw1, hw2⟩ | ⟨w, hw1, hw2⟩
  · exact Or.inr ⟨w, hw1, hw2⟩
  · exact Or.inl ⟨w, hw1, hw2⟩

/-- All-suffix matcher failure, concatenation step. -/
theorem allSfx_append {m : List Char → Option α} {A B : List Char}
    (hA : ∀ w, (∃ u, A = u ++ w) → w ≠ [] → m (w ++ B) = none)
    (hB : ∀ u v, B = u ++ v → v ≠ [] → m v = none) :
    ∀ u v, A ++ B = u ++ v → v ≠ [] → m v = none := by
  intro u v h hne
  rcases suffix_split h with ⟨w, hw1, hw2⟩ | ⟨w, hw1, hw2⟩
  · rcases w with _ | ⟨c, w⟩
    · simp only [List.nil_append] at hw2
      rw [hw2] at hne ⊢
      cases B with
      | nil => exact absurd rfl hne
      | cons b bs => exact hB [] (b :: bs) rfl (by simp)
    · exact hw2 ▸ hA (c :: w) ⟨u, hw1⟩ (by simp)
  · exact hB w v hw2 hne

/-- All suffixes of a region whose characters all kill the matcher. -/
theorem allSfx_region {m : List Char → Option α} {R B : List Char}
    (hkill : ∀ c, c ∈ R → ∀ t, m (c :: t) = none) :
    ∀ w, (∃ u, R = u ++ w) → w ≠ [] → m (w ++ B) = none := by
  intro w hw hne
  rcases w with _ | ⟨c, w⟩
  · simp at hne
  · obtain ⟨u, hu⟩ := hw
    exact hkill c (by rw [hu]; simp) (w ++ B)

/-!  Lemmas about target normalization and bundle names (claims C8, C9).  -/

theorem jsSetDedup_mem {x : List Char} :
    ∀ (l seen : List (List Char)), x ∈ jsSetDedup seen l ↔ x ∈ l ∧ x ∉ seen := by
  intro l
  induction l with
  | nil => intro seen; simp [jsSetDedup]
  | cons y ys ih =>
    intro seen
    unfold jsSetDedup
    by_cases hy : y ∈ seen
    · simp only [if_pos hy, ih]
      constructor
      · rintro ⟨h1, h2⟩; exact ⟨List.mem_cons_of_mem y h1, h2⟩
      · rintro ⟨h1, h2⟩
        rcases List.mem_cons.mp h1 with rfl | h1
        · exact absurd hy h2
        · exact ⟨h1, h2⟩
    · simp only [if_neg hy, List.mem_cons, ih]
      constructor
      · rintro (rfl | ⟨h1, h2⟩)
        · exact ⟨Or.inl rfl, hy⟩
        · exact ⟨Or.inr h1, fun hx => h2 (Or.inr hx)⟩
      · rintro ⟨rfl | h1, h2⟩
        · exact Or.inl rfl
        · by_cases hxy : x = y
          · exact Or.inl hxy
          · exact Or.inr ⟨h1, by simp [hxy, h2]⟩

theorem jsSetDedup_nodup : ∀ (l seen : List (List Char)),
    (jsSetDedup seen l).Nodup := by
  intro l
  induction l with
  | nil => intro seen; simp [jsSetDedup]
  | cons y ys ih =>
    intro seen
    unfold jsSetDedup
    by_cases hy : y ∈ seen
    · simp only [if_pos hy]; exact ih seen
    · simp only [if_neg hy]
      refine List.nodup_cons.mpr ⟨?_, ih (y :: seen)⟩
      intro hmem
      exact (jsSetDedup_mem ys (y :: seen)).mp hmem |>.2 (List.mem_cons_self y seen)

theorem normalizeTargets_some (l : List (Option (List Char))) :
    normalizeTargets (some l) =
      if (filteredTargets l).length > 0 then jsSetDedup [] (filteredTargets l)
      else DEFAULT_LWC_TARGETS := rfl

theorem isEmpty_false_of_ne {l : List Char} (h : l ≠ []) : l.isEmpty = false := by
  cases l with
  | nil => exact absurd rfl h
  | cons a as => rfl

/-- C9: for every input, `normalizeTargets` silently drops values outside
the fixed allowed set of three identifiers, deduplicates the survivors
(insertion order, so the result has no repeats and only allowed values),
and returns the full default set of three surfaces whenever the filtered
result is empty — including when the input is not a list. -/
theorem c9_normalize_targets :
    (∀ targets, (normalizeTargets targets).Nodup)
    ∧ (∀ targets v, v ∈ normalizeTargets targets → v ∈ DEFAULT_LWC_TARGETS)
    ∧ normalizeTargets none = DEFAULT_LWC_TARGETS
    ∧ (∀ l, filteredTargets l = [] →
        normalizeTargets (some l) = DEFAULT_LWC_TARGETS)
    ∧ (∀ l, filteredTargets l ≠ [] →
        normalizeTargets (some l) = jsSetDedup [] (filteredTargets l)
          ∧ ∀ v ∈ filteredTargets l, v ∈ normalizeTargets (some l)) := by
  have hsub : ∀ targets v, v ∈ normalizeTargets targets → v ∈ DEFAULT_LWC_TARGETS := by
    intro targets v hv
    cases targets with
    | none => exact hv
    | some l =>
      rw [normalizeTargets_some] at hv
      by_cases hl : (filteredTargets l).length > 0
      · rw [if_pos hl] at hv
        have hvf : v ∈ filteredTargets l := ((jsSetDedup_mem _ _).mp hv).1
        have := (List.mem_filter.mp hvf).2
        have hall : allowedTarget v = true := by
          rcases Bool.and_eq_true_iff.mp this with ⟨_, h2⟩
          exact h2
        exact of_decide_eq_true hall
      · rw [if_neg hl] at hv; exact hv
  refine ⟨?_, hsub, rfl, ?_, ?_⟩
  · intro targets
    cases targets with
    | none => decide
    | some l =>
      rw [normalizeTargets_some]
      by_cases hl : (filteredTargets l).length > 0
      · rw [if_pos hl]; exact jsSetDedup_nodup _ _
      · rw [if_neg hl]; decide
  · intro l hl
    rw [normalizeTargets_some, hl]
    rfl
  · intro l hl
    have hlen : (filteredTargets l).length > 0 := by
      cases hf : filteredTargets l with
      | nil => exact absurd hf hl
      | cons a as => simp [hf]
    refine ⟨by rw [normalizeTargets_some, if_pos hlen], ?_⟩
    intro v hv
    rw [normalizeTargets_some, if_pos hlen]
    exact (jsSetDedup_mem _ _).mpr ⟨hv, by simp⟩

/-- Closed instance of `c9_normalize_targets`: an unknown value is
dropped with fallback to the default set, and known values are trimmed,
deduplicated and kept in caller order. -/
theorem c9_normalize_targets_witness :
    normalizeTargets (some [some "junk".data]) = DEFAULT_LWC_TARGETS
    ∧ normalizeTargets
        (some [some "lightning__HomePage".data, some "junk".data, none,
               some "lightning__HomePage".data])
        = ["lightning__HomePage".data] := by
  refine ⟨c9_normalize_targets.2.2.2.1 _ (by decide), ?_⟩
  rw [(c9_normalize_targets.2.2.2.2 _ (by decide)).1]
  decide

/-- C8: every deploy request validates the bundle name against
`^[A-Za-z][A-Za-z0-9_]*$` (`bundleNameOk` on the trimmed name); a failing
name is answered with the client error naming the constraint and no
archive-building, login or submission action is performed, whereas a
passing name reaches the packaging stage whose first action builds the
archive.  The deploy server of the dual-provider configuration uses the
lowercase-starting variant of the pattern, which likewise maps every
non-matching name to the empty (rejected) name. -/
theorem c8_bundle_name_validation :
    (∀ user pass name targets, user ≠ [] → pass ≠ [] →
        bundleNameOk (trimWs name) = false →
        deployHandler user pass name targets true = (.badName badNameMsg, []))
    ∧ (∀ user pass name targets, user ≠ [] → pass ≠ [] →
        bundleNameOk (trimWs name) = true →
        deployHandler user pass name targets true =
          (.proceed (trimWs name) (normalizeTargets targets),
           [.buildZip (trimWs name), .login, .submitDeploy]))
    ∧ (∀ name, sanitizeBundleName name ≠ [] → bundleNameOk (trimWs name) = true)
    ∧ (∀ name, bundleNameOkLower (trimWs name) = false →
        sanitizeBundleNameLower name = []) := by
  refine ⟨?_, ?_, ?_, ?_⟩
  · intro user pass name targets hu hp hbad
    unfold deployHandler
    rw [isEmpty_false_of_ne hu, isEmpty_false_of_ne hp]
    simp only [Bool.or_self, Bool.false_eq_true, if_false]
    unfold sanitizeBundleName
    simp [hbad]
  · intro user pass name targets hu hp hok
    unfold deployHandler
    rw [isEmpty_false_of_ne hu, isEmpty_false_of_ne hp]
    simp only [Bool.or_self, Bool.false_eq_true, if_false]
    have hne : trimWs name ≠ [] := by
      intro h
      rw [h] at hok
      simp [bundleNameOk] at hok
    unfold sanitizeBundleName
    simp [hok, isEmpty_false_of_ne hne]
  · intro name hne
    unfold sanitizeBundleName at hne
    by_cases hok : bundleNameOk (trimWs name) = true
    · exact hok
    · rw [Bool.not_eq_true] at hok
      simp [hok] at hne
  · intro name hbad
    unfold sanitizeBundleNameLower
    simp [hbad]

/-- Closed instance of `c8_bundle_name_validation` at the bundle name
`"123abc"` of the spec scenario. -/
theorem c8_bundle_name_validation_witness :
    deployHandler "u".data "p".data "123abc".data none true
      = (.badName badNameMsg, [])
    ∧ sanitizeBundleNameLower "Abc".data = [] := by
  exact ⟨c8_bundle_name_validation.1 _ _ _ _ (by decide) (by decide) (by decide),
    c8_bundle_name_validation.2.2.2 _ (by decide)⟩

/-!  Lemmas about the deployment poll loop (claim C7).  -/

theorem pollLoop_step_notdone {polls : Nat → DeployStatus}
    {interval deadline f t k : Nat} (h : t ≤ deadline)
    (hd : (polls k).done = false) :
    pollLoop polls interval deadline (f + 1) t k
      = ((pollLoop polls interval deadline f (t + interval) (k + 1)).1,
         t :: (pollLoop polls interval deadline f (t + interval) (k + 1)).2) := by
  conv_lhs => unfold pollLoop
  rw [if_pos h]
  simp [hd]

theorem pollLoop_step_done {polls : Nat → DeployStatus}
    {interval deadline f t k : Nat} (h : t ≤ deadline)
    (hd : (polls k).done = true) :
    pollLoop polls interval deadline (f + 1) t k = (.ok (polls k), [t]) := by
  conv_lhs => unfold pollLoop
  rw [if_pos h]
  simp [hd]

theorem pollLoop_timeout {polls : Nat → DeployStatus} {interval deadline : Nat}
    (hnd : ∀ k, (polls k).done = false) :
    ∀ fuel t k, deadline + 1 ≤ t + fuel * interval →
      (pollLoop polls interval deadline fuel t k).1 = .error timeoutMsg
      ∧ ∀ τ ∈ (pollLoop polls interval deadline fuel t k).2, τ ≤ deadline := by
  intro fuel
  induction fuel with
  | zero =>
    intro t k hfu
    have ht : ¬ t ≤ deadline := by simp at hfu; omega
    unfold pollLoop
    rw [if_neg ht]
    exact ⟨rfl, by simp⟩
  | succ f ih =>
    intro t k hfu
    by_cases ht : t ≤ deadline
    · have hrec := ih (t + interval) (k + 1)
        (by rw [Nat.succ_mul] at hfu; omega)
      rw [pollLoop_step_notdone ht (hnd k)]
      refine ⟨hrec.1, ?_⟩
      intro τ hτ
      rcases List.mem_cons.mp hτ with rfl | hτ
      · exact ht
      · exact hrec.2 τ hτ
    · unfold pollLoop
      rw [if_neg ht]
      exact ⟨rfl, by simp⟩

/-- C7: the poll loop is bounded by the configured deadline.  If the job
never reports done, the orchestrator ends with the distinct timeout error
and every poll it performed happened at a time not after the deadline (no
poll after the deadline; the embedding's only remote action is polling —
the source has no job-cancellation call).  A sequence reporting
`done:false` three times and then `done:true` within the deadline returns
the final poll's result after exactly three poll intervals plus the final
check (four polls at `t0`, `t0+i`, `t0+2i`, `t0+3i`). -/
theorem c7_poll_loop_deadline :
    (∀ (polls : Nat → DeployStatus) (timeoutMs intervalMs t0 : Nat),
      0 < intervalMs → (∀ k, (polls k).done = false) →
      (waitForDeployCompletion true polls timeoutMs intervalMs t0).1
          = .error timeoutMsg
        ∧ ∀ τ ∈ (waitForDeployCompletion true polls timeoutMs intervalMs t0).2,
            τ ≤ t0 + timeoutMs)
    ∧ (∀ (polls : Nat → DeployStatus) (timeoutMs intervalMs t0 : Nat),
      0 < intervalMs → 3 * intervalMs ≤ timeoutMs →
      (polls 0).done = false → (polls 1).done = false →
      (polls 2).done = false → (polls 3).done = true →
      waitForDeployCompletion true polls timeoutMs intervalMs t0
        = (.ok (polls 3),
           [t0, t0 + intervalMs, t0 + 2 * intervalMs, t0 + 3 * intervalMs])) := by
  constructor
  · intro polls timeoutMs intervalMs t0 hpos hnd
    unfold waitForDeployCompletion
    simp only [Bool.not_true, Bool.false_eq_true, if_false]
    apply pollLoop_timeout hnd
    have hdm := Nat.div_add_mod' timeoutMs intervalMs
    have hmlt := Nat.mod_lt timeoutMs hpos
    rw [Nat.succ_mul]
    omega
  · intro polls timeoutMs intervalMs t0 hpos h3 hd0 hd1 hd2 hd3
    unfold waitForDeployCompletion
    simp only [Bool.not_true, Bool.false_eq_true, if_false]
    have hdiv : 3 ≤ timeoutMs / intervalMs :=
      (Nat.le_div_iff_mul_le hpos).mpr h3
    obtain ⟨f, hf⟩ : ∃ f, timeoutMs / intervalMs + 1 = f + 4 :=
      ⟨timeoutMs / intervalMs - 3, by omega⟩
    have h3i : 3 * intervalMs = intervalMs + intervalMs + intervalMs := by ring
    rw [hf,
      pollLoop_step_notdone (by omega) hd0,
      pollLoop_step_notdone (by omega) hd1,
      pollLoop_step_notdone (by omega) hd2,
      pollLoop_step_done (by omega) hd3,
      show t0 + intervalMs + intervalMs + intervalMs = t0 + 3 * intervalMs from
        by ring,
      show t0 + intervalMs + intervalMs = t0 + 2 * intervalMs from by ring]

/-- Closed instance of `c7_poll_loop_deadline`: a never-done sequence at
the default five-minute timeout and five-second interval times out, and a
three-misses-then-done sequence returns after three intervals plus the
final check. -/
theorem c7_poll_loop_deadline_witness :
    (waitForDeployCompletion true (fun _ => ⟨false, false⟩) 300000 5000 0).1
        = .error timeoutMsg
    ∧ waitForDeployCompletion true (fun k => ⟨k == 3, true⟩) 300000 5000 100
        = (.ok ⟨true, true⟩, [100, 5100, 10100, 15100]) := by
  constructor
  · exact (c7_poll_loop_deadline.1 (fun _ => ⟨false, false⟩) 300000 5000 0
      (by decide) (fun k => rfl)).1
  · rw [c7_poll_loop_deadline.2 (fun k => ⟨k == 3, true⟩) 300000 5000 100
      (by decide) (by decide) (by decide) (by decide) (by decide) (by decide)]
    rfl

/-!  Claims C10 and C3: the behavior-consistency enforcers.  -/

theorem catLists_append (a b : List (List Char)) :
    catLists (a ++ b) = catLists a ++ catLists b := by
  induction a with
  | nil => rfl
  | cons l ls ih => simp [catLists, ih]

/-- A behavior text containing a call site `this.mergeClasses(...)` but no
definition of the merge utility. -/
def mergeCallSiteJs : List Char :=
  "export default class Preview extends LightningElement ".data ++ [obr]
    ++ " handleClick(event) ".data ++ [obr]
    ++ " this.mergeClasses(x); ".data ++ [cbr] ++ " ".data ++ [cbr]

/-- C10: `ensureMergeClasses` is a total function that never throws (its
result type carries no error), and it returns its input unchanged both
when the behavior lacks the fixed class-header pattern — where
`ensureHandlerStubs` instead fails — and when the token `mergeClasses`
followed by `(` occurs anywhere at a word boundary, including a mere call
site such as `this.mergeClasses(x)` with no method definition present. -/
theorem c10_ensure_merge_classes_noop :
    (∀ js, headerTest js = false →
        ensureMergeClasses js = js
          ∧ ∀ names, ensureHandlerStubs js names = .error stubsErrMsg)
    ∧ (∀ js, hasWordCall "mergeClasses".data js = true →
        ensureMergeClasses js = js)
    ∧ ensureMergeClasses mergeCallSiteJs = mergeCallSiteJs
    ∧ headerTest mergeCallSiteJs = true := by
  have hnone : ∀ js : List Char, headerTest js = false → headerFind js = none := by
    intro js h
    cases hf : headerFind js with
    | none => rfl
    | some pr => rw [headerTest, hf] at h; simp at h
  refine ⟨?_, ?_, by decide, by decide⟩
  · intro js h
    refine ⟨?_, ?_⟩
    · unfold ensureMergeClasses
      by_cases hc : hasWordCall "mergeClasses".data js = true
      · rw [if_pos hc]
      · rw [Bool.not_eq_true] at hc
        rw [if_neg (by simp [hc]), hnone js h]
    · intro names
      unfold ensureHandlerStubs
      rw [hnone js h]
  · intro js hc
    unfold ensureMergeClasses
    rw [if_pos hc]

/-- Closed instance of `c10_ensure_merge_classes_noop` at a behavior text
without the class header. -/
theorem c10_ensure_merge_classes_noop_witness :
    ensureMergeClasses "class Widget ".data = "class Widget ".data
    ∧ ensureHandlerStubs "class Widget ".data ["save".data]
        = .error stubsErrMsg := by
  have h := c10_ensure_merge_classes_noop.1 "class Widget ".data (by decide)
  exact ⟨h.1, h.2 ["save".data]⟩

/-- The stub behavior text shipped by the server (`STUB.js`,
lines 294-295). -/
def scenarioJs : List Char :=
  "import ".data ++ [obr] ++ " LightningElement ".data ++ [cbr]
    ++ " from ".data ++ [apos] ++ "lwc".data ++ [apos] ++ ";".data ++ [nlc]
    ++ "export default class Preview extends LightningElement ".data
    ++ [obr] ++ [cbr]

/-- `scenarioJs` up to and including the class-header brace. -/
def scenarioHead : List Char :=
  "import ".data ++ [obr] ++ " LightningElement ".data ++ [cbr]
    ++ " from ".data ++ [apos] ++ "lwc".data ++ [apos] ++ ";".data ++ [nlc]
    ++ "export default class Preview extends LightningElement ".data
    ++ [obr]

/-- Result of stubbing `save` into `scenarioJs`. -/
def scenarioOut : List Char :=
  scenarioHead ++ [nlc] ++ stubFor "save".data ++ [nlc] ++ [cbr]

/-- C3: `ensureHandlerStubs` fails with the missing-class error exactly
when the behavior lacks the fixed class-header pattern; otherwise every
handler name for which the word-boundary identifier-then-parenthesis test
fails gets a stub method appended right after the class header, so the
result contains `<name>(event) { /* auto-added */ }`.  Concretely, markup
`<div onclick="save()">` normalizes to `<div onclick={save}>`, the
extracted handler list is `[save]`, and stubbing the server's stub
behavior yields a behavior containing `save(event) { /* auto-added */ }`
directly after the header. -/
theorem c3_ensure_handler_stubs :
    (∀ js names, headerTest js = false →
        ensureHandlerStubs js names = .error stubsErrMsg)
    ∧ (∀ js names n pre m rest, n ∈ names → hasWordCall n js = false →
        headerFind js = some (pre, m, rest) →
        ∃ u v, ensureHandlerStubs js names = .ok (u ++ stubFor n ++ v))
    ∧ sanitizeHtml "<div onclick=\"save()\">".data
        = .ok ("<div onclick=".data ++ [obr] ++ "save".data ++ [cbr]
            ++ ">".data, false)
    ∧ extractHandlerNames ("<div onclick=".data ++ [obr] ++ "save".data
        ++ [cbr] ++ ">".data) = ["save".data]
    ∧ ensureHandlerStubs scenarioJs ["save".data] = .ok scenarioOut := by
  refine ⟨?_, ?_, by decide, by decide, by decide⟩
  · intro js names h
    unfold ensureHandlerStubs
    cases hf : headerFind js with
    | none => rfl
    | some pr => rw [headerTest, hf] at h; simp at h
  · intro js names n pre m rest hn hnc hf
    unfold ensureHandlerStubs
    simp only [hf]
    have hmem : n ∈ names.filter (fun x => !hasWordCall x js) :=
      List.mem_filter.mpr ⟨hn, by rw [hnc]; rfl⟩
    obtain ⟨l1, l2, hl⟩ := List.append_of_mem hmem
    rw [if_pos (by rw [hl]; simp)]
    refine ⟨pre ++ m ++ [nlc] ++ catLists (l1.map stubFor), ?_⟩
    refine ⟨catLists (l2.map stubFor) ++ [nlc] ++ rest, ?_⟩
    rw [hl]
    simp [catLists_append, catLists, List.append_assoc]

/-!  Support for claim C4: word-boundary call tests across insertions.  -/

theorem snoc_last_eq {x z : List Char} {d e : Char}
    (h : x ++ [d] = z ++ [e]) : d = e := by
  have := congrArg List.reverse h
  simp at this
  exact this.1

theorem dropWhile_app_all {p : Char → Bool} {w z : List Char}
    (h : ∀ c ∈ w, p c = true) : (w ++ z).dropWhile p = z.dropWhile p := by
  induction w with
  | nil => rfl
  | cons c cs ih =>
    simp only [List.cons_append, List.dropWhile_cons, h c (by simp), if_true]
    exact ih (fun d hd => h d (by simp [hd]))

theorem takeWhile_app_all {p : Char → Bool} {w z : List Char}
    (h : ∀ c ∈ w, p c = true) : (w ++ z).takeWhile p = w ++ z.takeWhile p := by
  induction w with
  | nil => rfl
  | cons c cs ih =>
    simp only [List.cons_append, List.takeWhile_cons, h c (by simp), if_true]
    rw [ih (fun d hd => h d (by simp [hd]))]

theorem wsPlusTok_sound {s w r : List Char} (h : wsPlusTok s = some (w, r)) :
    s = w ++ r ∧ w ≠ [] ∧ ∀ c ∈ w, isWs c = true := by
  cases s with
  | nil => simp [wsPlusTok] at h
  | cons c cs =>
    by_cases hc : isWs c = true
    · have h2 : c :: cs.takeWhile isWs = w ∧ cs.dropWhile isWs = r := by
        simpa [wsPlusTok, hc] using h
      refine ⟨?_, ?_, ?_⟩
      · rw [← h2.1, ← h2.2, List.cons_append, List.takeWhile_append_dropWhile]
      · rw [← h2.1]; simp
      · intro d hd
        rw [← h2.1] at hd
        rcases List.mem_cons.mp hd with rfl | hd
        · exact hc
        · exact List.mem_takeWhile_imp hd
    · simp [wsPlusTok, hc] at h

theorem wsStarTok_sound {s : List Char} :
    s = (wsStarTok s).1 ++ (wsStarTok s).2
    ∧ ∀ c ∈ (wsStarTok s).1, isWs c = true := by
  constructor
  · rw [wsStarTok, List.takeWhile_append_dropWhile]
  · exact fun c hc => List.mem_takeWhile_imp hc

theorem callTail_paren (x : List Char) : callTail ('(' :: x) = true := by
  simp [callTail, wsStar, List.dropWhile_cons, isWs]

theorem callTail_ws_paren {w x : List Char} (h : ∀ c ∈ w, isWs c = true) :
    callTail (w ++ '(' :: x) = true := by
  unfold callTail wsStar
  rw [dropWhile_app_all h]
  simp [List.dropWhile_cons, isWs]

theorem callTail_sound {b : List Char} (h : callTail b = true) :
    ∃ w x, b = w ++ '(' :: x ∧ ∀ c ∈ w, isWs c = true := by
  unfold callTail wsStar at h
  cases hd : b.dropWhile isWs with
  | nil => rw [hd] at h; simp at h
  | cons c x =>
    rw [hd] at h
    simp only [beq_iff_eq] at h
    subst h
    refine ⟨b.takeWhile isWs, x, ?_, fun c hc => List.mem_takeWhile_imp hc⟩
    rw [← hd, List.takeWhile_append_dropWhile]

theorem hasCallGo_extend {name : List Char} :
    ∀ (a : List Char) (bnd : Bool) (c : Char) (rest : List Char),
    hasCallGo name (!isWordC c) rest = true →
    hasCallGo name bnd (a ++ c :: rest) = true := by
  intro a
  induction a with
  | nil =>
    intro bnd c rest h
    simp only [List.nil_append, hasCallGo]
    rw [h]
    simp
  | cons d ds ih =>
    intro bnd c rest h
    simp only [List.cons_append, hasCallGo, List.append_eq]
    rw [ih (!isWordC d) c rest h]
    simp

theorem hasCallGo_here {name b : List Char} (hname : name ≠ [])
    (hcall : callTail b = true) : hasCallGo name true (name ++ b) = true := by
  cases hn : name with
  | nil => exact absurd hn hname
  | cons c cs =>
    have hl : leads (c :: cs) (c :: (cs ++ b)) = true := by
      rw [← List.cons_append]
      exact leads_self _ _
    have hd : List.drop (c :: cs).length (c :: (cs ++ b)) = b := by
      rw [← List.cons_append]
      exact List.drop_left _ _
    show hasCallGo (c :: cs) true ((c :: cs) ++ b) = true
    simp only [List.cons_append, hasCallGo, List.append_eq]
    rw [hl, hd, hcall]
    simp

/-- Completeness of the `\b<name>\s*\(` scan: an occurrence of the name
after a non-word character (or at the start), followed by a call tail,
is found. -/
theorem hasWordCall_complete_nil {name b : List Char} (hname : name ≠ [])
    (hcall : callTail b = true) : hasWordCall name (name ++ b) = true :=
  hasCallGo_here hname hcall

theorem hasWordCall_complete {name a b : List Char} {c : Char}
    (hname : name ≠ []) (hc : isWordC c = false) (hcall : callTail b = true) :
    hasWordCall name (a ++ c :: (name ++ b)) = true := by
  apply hasCallGo_extend
  rw [hc]
  exact hasCallGo_here hname hcall

/-- Soundness of the `\b<name>\s*\(` scan. -/
theorem hasCallGo_sound {name : List Char} :
    ∀ (s : List Char) (bnd : Bool), hasCallGo name bnd s = true →
    ∃ a b, s = a ++ name ++ b ∧ callTail b = true
      ∧ (a = [] → bnd = true)
      ∧ (∀ c a2, a = a2 ++ [c] → isWordC c = false) := by
  intro s
  induction s with
  | nil => intro bnd h; simp [hasCallGo] at h
  | cons c cs ih =>
    intro bnd h
    unfold hasCallGo at h
    rcases Bool.or_eq_true_iff.mp h with h1 | h2
    · rcases Bool.and_eq_true_iff.mp h1 with ⟨h11, h12⟩
      rcases Bool.and_eq_true_iff.mp h11 with ⟨hb, hl⟩
      obtain ⟨r, hr⟩ := leads_iff.mp hl
      refine ⟨[], r, by simpa using hr, ?_, fun _ => hb, ?_⟩
      · rw [hr, List.drop_left] at h12
        exact h12
      · intro d a2 ha
        exact absurd ha.symm (by simp)
    · obtain ⟨a, b, hs, hcall, hemp, hlast⟩ := ih (!isWordC c) h2
      refine ⟨c :: a, b, by simp [hs], hcall, by simp, ?_⟩
      intro d a2 ha
      cases a2 with
      | nil =>
        simp only [List.nil_append] at ha
        have h1 : c = d ∧ a = [] := by
          have := List.cons.inj ha
          exact ⟨this.1, this.2⟩
        rcases h1 with ⟨rfl, rfl⟩
        have := hemp rfl
        simp at this
        exact this
      | cons e a3 =>
        have h1 : c = e ∧ a = a3 ++ [d] := by
          rw [List.cons_append] at ha
          have := List.cons.inj ha
          exact ⟨this.1, this.2⟩
        exact hlast d a3 h1.2

theorem chr_self (c : Char) (z : List Char) : chr c (c :: z) = some z := by
  simp [chr]

theorem wsPlusTok_complete {w : List Char} {d : Char} {z : List Char}
    (hne : w ≠ []) (hw : ∀ c ∈ w, isWs c = true) (hd : isWs d = false) :
    wsPlusTok (w ++ d :: z) = some (w, d :: z) := by
  cases w with
  | nil => exact absurd rfl hne
  | cons c w2 =>
    have hc : isWs c = true := hw c (by simp)
    have hall : ∀ x ∈ w2, isWs x = true := fun x hx => hw x (by simp [hx])
    simp only [List.cons_append, wsPlusTok, hc, if_true]
    rw [takeWhile_app_all hall, dropWhile_app_all hall]
    simp [List.takeWhile_cons, List.dropWhile_cons, hd]

theorem wsStarTok_complete {w : List Char} {d : Char} {z : List Char}
    (hw : ∀ c ∈ w, isWs c = true) (hd : isWs d = false) :
    wsStarTok (w ++ d :: z) = (w, d :: z) := by
  unfold wsStarTok
  rw [takeWhile_app_all hw, dropWhile_app_all hw]
  simp [List.takeWhile_cons, List.dropWhile_cons, hd]

/-- The class-header text as a function of its six whitespace runs. -/
def headerText (w1 w2 w3 w4 w5 w6 : List Char) : List Char :=
  "export".data ++ w1 ++ "default".data ++ w2 ++ "class".data ++ w3
    ++ "Preview".data ++ w4 ++ "extends".data ++ w5
    ++ "LightningElement".data ++ w6 ++ [obr]

theorem lit_cons {p : List Char} {c : Char} {t z : List Char}
    (h : p = c :: t) : lit p (c :: (t ++ z)) = some z := by
  rw [h, ← List.cons_append]
  exact lit_self _ _

/-- Soundness of the class-header matcher: a match decomposes the input
into the header text (ending in the open brace) and the rest. -/
theorem headerM_sound {s m rest : List Char} (h : headerM s = some (m, rest)) :
    ∃ w1 w2 w3 w4 w5 w6,
      (∀ c ∈ w1, isWs c = true) ∧ (∀ c ∈ w2, isWs c = true)
      ∧ (∀ c ∈ w3, isWs c = true) ∧ (∀ c ∈ w4, isWs c = true)
      ∧ (∀ c ∈ w5, isWs c = true) ∧ (∀ c ∈ w6, isWs c = true)
      ∧ w1 ≠ [] ∧ w2 ≠ [] ∧ w3 ≠ [] ∧ w4 ≠ [] ∧ w5 ≠ []
      ∧ m = headerText w1 w2 w3 w4 w5 w6
      ∧ s = m ++ rest := by
  simp only [headerM, Option.bind_eq_bind, Option.bind_eq_some] at h
  obtain ⟨r1, h1, ⟨w1, r2⟩, hw1, r3, h3, ⟨w2, r4⟩, hw2, r5, h5, ⟨w3, r6⟩, hw3,
    r7, h7, ⟨w4, r8⟩, hw4, r9, h9, ⟨w5, r10⟩, hw5, r11, h11, r13, h13, hfin⟩ := h
  dsimp only at h3 h5 h7 h9 h11 hfin
  obtain ⟨e2, w1ne, w1ws⟩ := wsPlusTok_sound hw1
  obtain ⟨e4, w2ne, w2ws⟩ := wsPlusTok_sound hw2
  obtain ⟨e6, w3ne, w3ws⟩ := wsPlusTok_sound hw3
  obtain ⟨e8, w4ne, w4ws⟩ := wsPlusTok_sound hw4
  obtain ⟨e10, w5ne, w5ws⟩ := wsPlusTok_sound hw5
  have e11 := @wsStarTok_sound r11
  have e13 := chr_sound h13
  have hfin2 := Option.some.inj hfin
  set w6 := (wsStarTok r11).1 with hw6
  set r12 := (wsStarTok r11).2 with hr12
  have hm : headerText w1 w2 w3 w4 w5 w6 = m := by
    have := congrArg Prod.fst hfin2
    simpa [headerText] using this
  have hrest : r13 = rest := congrArg Prod.snd hfin2
  refine ⟨w1, w2, w3, w4, w5, w6, w1ws, w2ws, w3ws, w4ws, w5ws,
    e11.2, w1ne, w2ne, w3ne, w4ne, w5ne, hm.symm, ?_⟩
  rw [← hm, ← hrest]
  rw [lit_sound h1, e2, lit_sound h3, e4, lit_sound h5, e6, lit_sound h7, e8,
    lit_sound h9, e10, lit_sound h11, e11.1, e13]
  simp [headerText, List.append_assoc]

/-- Completeness of the class-header matcher on any continuation. -/
theorem headerM_complete {w1 w2 w3 w4 w5 w6 : List Char}
    (w1ws : ∀ c ∈ w1, isWs c = true) (w2ws : ∀ c ∈ w2, isWs c = true)
    (w3ws : ∀ c ∈ w3, isWs c = true) (w4ws : ∀ c ∈ w4, isWs c = true)
    (w5ws : ∀ c ∈ w5, isWs c = true) (w6ws : ∀ c ∈ w6, isWs c = true)
    (w1ne : w1 ≠ []) (w2ne : w2 ≠ []) (w3ne : w3 ≠ []) (w4ne : w4 ≠ [])
    (w5ne : w5 ≠ []) (z : List Char) :
    headerM (headerText w1 w2 w3 w4 w5 w6 ++ z)
      = some (headerText w1 w2 w3 w4 w5 w6, z) := by
  have harr : headerText w1 w2 w3 w4 w5 w6 ++ z
      = "export".data ++ (w1 ++ ('d' :: ("efault".data ++ (w2 ++ ('c' :: ("lass".data ++ (w3 ++ ('P' :: ("review".data ++ (w4 ++ ('e' :: ("xtends".data ++ (w5 ++ ('L' :: ("ightningElement".data ++ (w6 ++ (obr :: z))))))))))))))))) := by
    simp only [headerText, List.append_assoc]
    rfl
  simp only [headerM]
  rw [harr, lit_self]
  simp only [Option.bind_eq_bind, Option.some_bind]
  rw [wsPlusTok_complete w1ne w1ws (by decide)]
  simp only [Option.bind_eq_bind, Option.some_bind]
  rw [lit_cons (show "default".data = 'd' :: "efault".data from rfl)]
  simp only [Option.bind_eq_bind, Option.some_bind]
  rw [wsPlusTok_complete w2ne w2ws (by decide)]
  simp only [Option.bind_eq_bind, Option.some_bind]
  rw [lit_cons (show "class".data = 'c' :: "lass".data from rfl)]
  simp only [Option.bind_eq_bind, Option.some_bind]
  rw [wsPlusTok_complete w3ne w3ws (by decide)]
  simp only [Option.bind_eq_bind, Option.some_bind]
  rw [lit_cons (show "Preview".data = 'P' :: "review".data from rfl)]
  simp only [Option.bind_eq_bind, Option.some_bind]
  rw [wsPlusTok_complete w4ne w4ws (by decide)]
  simp only [Option.bind_eq_bind, Option.some_bind]
  rw [lit_cons (show "extends".data = 'e' :: "xtends".data from rfl)]
  simp only [Option.bind_eq_bind, Option.some_bind]
  rw [wsPlusTok_complete w5ne w5ws (by decide)]
  simp only [Option.bind_eq_bind, Option.some_bind]
  rw [lit_cons (show "LightningElement".data = 'L' :: "ightningElement".data
    from rfl)]
  simp only [Option.bind_eq_bind, Option.some_bind]
  rw [wsStarTok_complete w6ws (by decide)]
  rw [chr_self]
  simp only [Option.bind_eq_bind, Option.some_bind]
  simp [headerText, List.append_assoc]

theorem eq_nil_or_snoc (l : List Char) : l = [] ∨ ∃ t c, l = t ++ [c] := by
  rcases List.eq_nil_or_concat l with h | ⟨t, c, h⟩
  · exact Or.inl h
  · exact Or.inr ⟨t, c, by rw [h, List.concat_eq_append]⟩

theorem ensureMergeClasses_insert {js pre m rest : List Char}
    (hc : hasWordCall "mergeClasses".data js = false)
    (hf : headerFind js = some (pre, m, rest)) :
    ensureMergeClasses js = pre ++ m ++ helperBody ++ rest := by
  unfold ensureMergeClasses
  rw [if_neg (by simp [hc])]
  simp only [hf]

/-- An occurrence of `\b<name>\s*\(` survives the insertion of a block
`Q` right after a prefix `P` ending in `{`, provided `Q` ends in a
newline and the name is made of word characters: the inserted block can
never cut an occurrence apart, because every character of an occurrence
is a word character, whitespace or `(`, while the junction is marked by
the brace. -/
theorem hasWordCall_insert {n P Q R : List Char}
    (hn : n ≠ []) (hw : ∀ c ∈ n, isWordC c = true)
    (hP : ∃ P0, P = P0 ++ [obr])
    (hQ : ∃ Q0, Q = Q0 ++ [nlc])
    (h : hasWordCall n (P ++ R) = true) :
    hasWordCall n (P ++ Q ++ R) = true := by
  obtain ⟨P0, hP0⟩ := hP
  obtain ⟨Q0, hQ0⟩ := hQ
  rw [hasWordCall] at h
  obtain ⟨a, b, hs, hcall, hemp, hlast⟩ := hasCallGo_sound (P ++ R) true h
  have hs2 : P ++ R = a ++ (n ++ b) := by rw [hs]; simp [List.append_assoc]
  have hnlcw : isWordC nlc = false := by decide
  have hobrw : isWordC obr = false := by decide
  have hobrs : isWs obr = false := by decide
  rcases suffix_split hs2 with ⟨w, hw1, hw2⟩ | ⟨w, hw1, hw2⟩
  · -- the occurrence starts at or before the junction: P = a ++ w,
    -- n ++ b = w ++ R
    rcases eq_nil_or_snoc w with rfl | ⟨w0, d, rfl⟩
    · -- starts exactly at the junction: R = n ++ b
      simp only [List.append_nil] at hw1
      simp only [List.nil_append] at hw2
      rw [show P ++ Q ++ R = (P ++ Q0) ++ nlc :: (n ++ b) from by
        rw [hQ0, ← hw2]; simp [List.append_assoc]]
      exact hasWordCall_complete hn hnlcw hcall
    · -- w nonempty: split n ++ b = (w0 ++ [d]) ++ R further
      rcases suffix_split (A := n) (B := b) (u := w0 ++ [d]) (v := R) hw2 with
        ⟨u2, hu1, hu2⟩ | ⟨u2, hu1, hu2⟩
      · -- n = (w0 ++ [d]) ++ u2: the name would straddle the junction
        have hd : d = obr := by
          apply snoc_last_eq (x := a ++ w0) (z := P0)
          rw [← hP0, hw1]
          simp [List.append_assoc]
        have : isWordC d = true := hw d (by rw [hu1]; simp)
        rw [hd, hobrw] at this
        simp at this
      · -- (w0 ++ [d]) = n ++ u2, b = u2 ++ R: the name sits inside P
        obtain ⟨ws1, b2, hb, hws1⟩ := callTail_sound hcall
        -- b = ws1 ++ '(' :: b2 and b = u2 ++ R
        have hbr : ws1 ++ ('(' :: b2) = u2 ++ R := by rw [← hb, hu2]
        have hulast : u2 = [] ∨ ∃ u0, u2 = u0 ++ [obr] := by
          rcases eq_nil_or_snoc u2 with rfl | ⟨u0, e, rfl⟩
          · exact Or.inl rfl
          · refine Or.inr ⟨u0, ?_⟩
            have he : e = obr := by
              apply snoc_last_eq (x := a ++ n ++ u0) (z := P0)
              rw [← hP0, hw1, hu1]
              simp [List.append_assoc]
            rw [he]
        rcases hulast with rfl | ⟨u0, rfl⟩
        · -- u2 = []: the name ends exactly at the junction, so the last
          -- character of P is the last character of n
          simp only [List.append_nil] at hu1
          have hd : d = obr := by
            apply snoc_last_eq (x := a ++ w0) (z := P0)
            rw [← hP0, hw1]
            simp [List.append_assoc]
          have : isWordC d = true := hw d (by rw [← hu1]; simp)
          rw [hd, hobrw] at this
          simp at this
        · -- u2 ends in the brace: the call parenthesis lies inside u2
          rcases suffix_split (A := ws1) (B := '(' :: b2) (u := u0 ++ [obr])
              (v := R) hbr with ⟨v2, hv1, hv2⟩ | ⟨v2, hv1, hv2⟩
          · -- u0 ++ [obr] would be a prefix of the whitespace run
            have : isWs obr = true := hws1 obr (by rw [hv1]; simp)
            rw [hobrs] at this
            simp at this
          · -- u0 ++ [obr] = ws1 ++ v2 with '(' :: b2 = v2 ++ R
            rcases v2 with _ | ⟨pc, v3⟩
            · simp only [List.append_nil] at hv1
              have : isWs obr = true := hws1 obr (by rw [← hv1]; simp)
              rw [hobrs] at this
              simp at this
            · have hpc : pc = '(' ∧ b2 = v3 ++ R := by
                have := List.cons.inj hv2
                exact ⟨this.1.symm, this.2⟩
              -- P = a ++ n ++ ws1 ++ '(' :: v3
              have hPdec : P = a ++ n ++ ws1 ++ '(' :: v3 := by
                rw [hw1, hu1, hv1, hpc.1]
                simp [List.append_assoc]
              have hcall2 : callTail (ws1 ++ '(' :: (v3 ++ Q ++ R)) = true :=
                callTail_ws_paren hws1
              rcases eq_nil_or_snoc a with rfl | ⟨a0, d0, rfl⟩
              · rw [show P ++ Q ++ R = n ++ (ws1 ++ '(' :: (v3 ++ Q ++ R)) from by
                  rw [hPdec]; simp [List.append_assoc]]
                exact hasWordCall_complete_nil hn hcall2
              · have hd0 : isWordC d0 = false := hlast d0 a0 rfl
                rw [show P ++ Q ++ R
                    = a0 ++ d0 :: (n ++ (ws1 ++ '(' :: (v3 ++ Q ++ R))) from by
                  rw [hPdec]; simp [List.append_assoc]]
                exact hasWordCall_complete hn hd0
                  (callTail_ws_paren hws1)
  · -- the occurrence lies inside R: a = P ++ w, R = w ++ (n ++ b)
    rcases eq_nil_or_snoc w with rfl | ⟨w0, d, rfl⟩
    · simp only [List.append_nil] at hw1
      rw [show P ++ Q ++ R = (P ++ Q0) ++ nlc :: (n ++ b) from by
        rw [hQ0, hw2]; simp [List.append_assoc]]
      exact hasWordCall_complete hn hnlcw hcall
    · have hd : isWordC d = false := by
        apply hlast d (P ++ w0)
        rw [hw1]
        simp [List.append_assoc]
      rw [show P ++ Q ++ R = (P ++ Q ++ w0) ++ d :: (n ++ b) from by
        rw [hw2]; simp [List.append_assoc]]
      exact hasWordCall_complete hn hd hcall

theorem catStubs_end (l : List (List Char)) :
    catLists (l.map stubFor) = []
    ∨ ∃ p, catLists (l.map stubFor) = p ++ [nlc] := by
  induction l with
  | nil => exact Or.inl rfl
  | cons x xs ih =>
    right
    rcases ih with h | ⟨p, hp⟩
    · refine ⟨x ++ "(event) ".data ++ [obr] ++ " /* auto-added */ ".data
        ++ [cbr], ?_⟩
      simp [catLists, h, stubFor]
    · refine ⟨stubFor x ++ p, ?_⟩
      simp [catLists, hp, List.append_assoc]

theorem nlc_catStubs_end (l : List (List Char)) :
    ∃ p0, [nlc] ++ catLists (l.map stubFor) = p0 ++ [nlc] := by
  rcases catStubs_end l with h | ⟨p, hp⟩
  · exact ⟨[], by rw [h]; simp⟩
  · exact ⟨nlc :: p, by rw [hp]; simp⟩

/-- C4: both behavior-consistency enforcers are idempotent.
`ensureMergeClasses` twice equals once on every behavior text, and for
every behavior satisfying the class-header precondition (so the first run
returns a result) and every handler-name list of identifiers,
`ensureHandlerStubs` applied again to its own result with the same list
returns that result unchanged. -/
theorem c4_enforcer_idempotence :
    (∀ js, ensureMergeClasses (ensureMergeClasses js) = ensureMergeClasses js)
    ∧ (∀ js names y,
        (∀ n ∈ names, n ≠ [] ∧ ∀ c ∈ n, isWordC c = true) →
        ensureHandlerStubs js names = .ok y →
        ensureHandlerStubs y names = .ok y) := by
  constructor
  · intro js
    by_cases hc : hasWordCall "mergeClasses".data js = true
    · have h1 : ensureMergeClasses js = js := by
        unfold ensureMergeClasses
        rw [if_pos hc]
      rw [h1, h1]
    · have hcf : hasWordCall "mergeClasses".data js = false := by
        rwa [Bool.not_eq_true] at hc
      cases hf : headerFind js with
      | none =>
        have h1 : ensureMergeClasses js = js := by
          unfold ensureMergeClasses
          rw [if_neg (by simp [hcf])]
          simp only [hf]
        rw [h1, h1]
      | some pr =>
        obtain ⟨pre, m, rest⟩ := pr
        have h1 := ensureMergeClasses_insert hcf hf
        rw [h1]
        have hsplit : helperBody
            = [nlc, ' ', ' '] ++ ("mergeClasses".data
                ++ ('(' :: helperBody.drop 16)) := by decide
        have h2 : hasWordCall "mergeClasses".data
            (pre ++ m ++ helperBody ++ rest) = true := by
          rw [show pre ++ m ++ helperBody ++ rest
              = (pre ++ m ++ [nlc, ' ']) ++ ' ' :: ("mergeClasses".data
                  ++ ('(' :: (helperBody.drop 16 ++ rest))) from by
            conv_lhs => rw [hsplit]
            simp [List.append_assoc]]
          exact hasWordCall_complete (by decide) (by decide) (callTail_paren _)
        unfold ensureMergeClasses
        rw [if_pos h2]
  · intro js names y hid hok
    unfold ensureHandlerStubs at hok
    cases hf : headerFind js with
    | none => rw [hf] at hok; simp at hok
    | some pr =>
      obtain ⟨pre, m, rest⟩ := pr
      simp only [hf] at hok
      by_cases hlen : (names.filter (fun n => !hasWordCall n js)).length > 0
      · rw [if_pos hlen] at hok
        injection hok with hy
        obtain ⟨t, hjs, hmt⟩ := findSplit_sound hf
        obtain ⟨w1, w2, w3, w4, w5, w6, w1ws, w2ws, w3ws, w4ws, w5ws, w6ws,
          w1ne, w2ne, w3ne, w4ne, w5ne, hmeq, hts⟩ := headerM_sound hmt
        have hjs2 : js = (pre ++ m) ++ rest := by
          rw [hjs, hts]
          simp [List.append_assoc]
        have hmbr : ∃ P0, pre ++ m = P0 ++ [obr] := by
          refine ⟨pre ++ ("export".data ++ w1 ++ "default".data ++ w2
            ++ "class".data ++ w3 ++ "Preview".data ++ w4 ++ "extends".data
            ++ w5 ++ "LightningElement".data ++ w6), ?_⟩
          rw [hmeq]
          simp [headerText, List.append_assoc]
        have hcatnl := nlc_catStubs_end (names.filter (fun n => !hasWordCall n js))
        obtain ⟨S0, hS0⟩ := hcatnl
        have hstubsnl : ∃ Q0,
            [nlc] ++ catLists ((names.filter (fun n => !hasWordCall n js)).map
              stubFor) ++ [nlc] = Q0 ++ [nlc] :=
          ⟨[nlc] ++ catLists ((names.filter (fun n => !hasWordCall n js)).map
            stubFor), by simp [List.append_assoc]⟩
        have hy2 : y = (pre ++ m)
            ++ ([nlc] ++ catLists ((names.filter
                  (fun n => !hasWordCall n js)).map stubFor) ++ [nlc])
            ++ rest := by
          rw [← hy]
        have hall : ∀ n ∈ names, hasWordCall n y = true := by
          intro n hn
          by_cases hnjs : hasWordCall n js = true
          · rw [hy2]
            apply hasWordCall_insert (hid n hn).1 (hid n hn).2 hmbr hstubsnl
            rw [← hjs2]
            exact hnjs
          · have hnf : n ∈ names.filter (fun x => !hasWordCall x js) :=
              List.mem_filter.mpr ⟨hn, by
                rw [Bool.not_eq_true] at hnjs
                simp [hnjs]⟩
            obtain ⟨l1, l2, hl⟩ := List.append_of_mem hnf
            obtain ⟨p0, hp0⟩ := nlc_catStubs_end l1
            have hsf : stubFor n = n ++ ('(' :: ("event) ".data ++ [obr]
                ++ " /* auto-added */ ".data ++ [cbr] ++ [nlc])) := by
              rw [stubFor, show "(event) ".data = '(' :: "event) ".data from rfl]
              simp [List.append_assoc]
            have hyx : y = ((pre ++ m) ++ p0) ++ nlc :: (n
                ++ ('(' :: ("event) ".data ++ [obr] ++ " /* auto-added */ ".data
                    ++ [cbr] ++ [nlc]
                    ++ (catLists (l2.map stubFor) ++ [nlc] ++ rest)))) := by
              rw [hy2, hl]
              simp only [List.map_append, List.map_cons, catLists_append,
                catLists, List.append_assoc]
              rw [← List.append_assoc [nlc] (catLists (l1.map stubFor)), hp0]
              rw [hsf]
              simp [List.append_assoc]
            rw [hyx]
            exact hasWordCall_complete (hid n hn).1 (by decide)
              (callTail_paren _)
        have hfilter2 : names.filter (fun n => !hasWordCall n y) = [] :=
          List.filter_eq_nil_iff.mpr (fun n hn => by simp [hall n hn])
        have hycomp : y = pre ++ (headerText w1 w2 w3 w4 w5 w6
            ++ (([nlc] ++ catLists ((names.filter
                  (fun n => !hasWordCall n js)).map stubFor) ++ [nlc])
                ++ rest)) := by
          rw [hy2, hmeq]
          simp [List.append_assoc]
        have hfy : (headerFind y).isSome = true := by
          rw [hycomp, headerFind]
          exact findSplit_isSome (headerM_complete w1ws w2ws w3ws w4ws w5ws
            w6ws w1ne w2ne w3ne w4ne w5ne _)
        unfold ensureHandlerStubs
        cases hfy2 : headerFind y with
        | none => rw [hfy2] at hfy; simp at hfy
        | some pr2 =>
          obtain ⟨pre2, m2, rest2⟩ := pr2
          rw [hfilter2]
          simp
      · rw [if_neg hlen] at hok
        injection hok with hy
        subst hy
        unfold ensureHandlerStubs
        simp only [hf]
        rw [if_neg hlen]

/-- Closed instance of `c4_enforcer_idempotence` at the server's stub
behavior text. -/
theorem c4_enforcer_idempotence_witness :
    ensureMergeClasses (ensureMergeClasses scenarioJs)
      = ensureMergeClasses scenarioJs
    ∧ ensureHandlerStubs scenarioOut ["save".data] = .ok scenarioOut := by
  refine ⟨c4_enforcer_idempotence.1 scenarioJs, ?_⟩
  exact c4_enforcer_idempotence.2 scenarioJs ["save".data] scenarioOut
    (by decide) (by decide)

/-!  Support for claims C5 and C6: the final guard and the duplicate
scan of `sanitizeHtml`.  -/

/-- `sanitizeHtml` rephrased through `afterEventPasses` (definitional). -/
theorem sanitizeHtml_eq (html : List Char) :
    sanitizeHtml html
      = if guardTest (afterEventPasses html) then .error inlineMsg
        else
          match dupScan (afterEventPasses html) with
          | some n => .error (dupMsg n)
          | none => .ok (trimWs (afterEventPasses html),
              (gsub clsSDM (gsub scriptM html).1).2
                || (gsub clsDSM (gsub clsSDM (gsub scriptM html).1).1).2) := by
  dsimp only [sanitizeHtml, afterEventPasses]

theorem firstDup_none_iff : ∀ (l seen : List (List Char)),
    firstDup seen l = none ↔ (∀ x ∈ l, x ∉ seen) ∧ l.Nodup := by
  intro l
  induction l with
  | nil => intro seen; simp [firstDup]
  | cons x xs ih =>
    intro seen
    unfold firstDup
    by_cases hx : x ∈ seen
    · simp only [if_pos hx]
      constructor
      · intro h; simp at h
      · rintro ⟨h1, _⟩
        exact absurd hx (h1 x (by simp))
    · simp only [if_neg hx, ih (x :: seen)]
      constructor
      · rintro ⟨h1, h2⟩
        refine ⟨?_, List.nodup_cons.mpr ⟨?_, h2⟩⟩
        · intro y hy
          rcases List.mem_cons.mp hy with rfl | hy2
          · exact hx
          · intro hc
            exact h1 y hy2 (List.mem_cons_of_mem x hc)
        · intro hc
          exact h1 x hc (List.mem_cons_self x seen)
      · rintro ⟨h1, h2⟩
        rcases List.nodup_cons.mp h2 with ⟨hx2, h3⟩
        refine ⟨?_, h3⟩
        intro y hy hc
        rcases List.mem_cons.mp hc with rfl | hc2
        · exact hx2 hy
        · exact h1 y (List.mem_cons_of_mem x hy) hc2

theorem dupScanChunks_none_iff : ∀ chunks : List (List Char),
    dupScanChunks chunks = none ↔ ∀ ch ∈ chunks, (attrNames ch).Nodup := by
  intro chunks
  induction chunks with
  | nil => simp [dupScanChunks]
  | cons ch rest ih =>
    unfold dupScanChunks
    cases hfd : firstDup [] (attrNames ch) with
    | some n =>
      simp only []
      constructor
      · intro h; simp at h
      · intro h
        have : firstDup [] (attrNames ch) = none :=
          (firstDup_none_iff _ []).mpr ⟨by simp, h ch (by simp)⟩
        rw [hfd] at this
        simp at this
    | none =>
      simp only [ih]
      have hnd : (attrNames ch).Nodup := ((firstDup_none_iff _ []).mp hfd).2
      constructor
      · intro h y hy
        rcases List.mem_cons.mp hy with rfl | hy2
        · exact hnd
        · exact h y hy2
      · intro h y hy
        exact h y (List.mem_cons_of_mem ch hy)

/-- C6: after the earlier passes, the duplicate scan walks every start
tag of the residual markup, and `sanitizeHtml` raises the
duplicate-attribute error naming an attribute exactly when some tag's
attribute region contains a repeated name token (the token immediately
preceding `=`); the error path is taken whenever the inline-handler
guard has not already fired.  A tag carrying two attributes with the
same name always raises the error naming it. -/
theorem c6_duplicate_attribute :
    (∀ html, guardTest (afterEventPasses html) = false →
      ((∃ n, sanitizeHtml html = .error (dupMsg n)) ↔
        ∃ ch ∈ tagChunks (afterEventPasses html), ¬ (attrNames ch).Nodup))
    ∧ sanitizeHtml "<div class=\"a\" class=\"b\"></div>".data
        = .error (dupMsg "class".data) := by
  constructor
  · intro html hguard
    rw [sanitizeHtml_eq, if_neg (by simp [hguard])]
    cases hds : dupScan (afterEventPasses html) with
    | none =>
      simp only []
      constructor
      · rintro ⟨n, hn⟩
        simp at hn
      · rintro ⟨ch, hch, hdup⟩
        exact absurd ((dupScanChunks_none_iff _).mp hds ch hch) hdup
    | some n =>
      simp only []
      constructor
      · rintro ⟨n2, _⟩
        by_contra hno
        push_neg at hno
        have : dupScanChunks (tagChunks (afterEventPasses html)) = none :=
          (dupScanChunks_none_iff _).mpr hno
        rw [show dupScanChunks (tagChunks (afterEventPasses html))
            = dupScan (afterEventPasses html) from rfl, hds] at this
        simp at this
      · intro _
        exact ⟨n, rfl⟩
  · decide

/-- Closed instance of `c6_duplicate_attribute` at a tag with a repeated
`id` attribute. -/
theorem c6_duplicate_attribute_witness :
    ∃ n, sanitizeHtml "<div id=\"a\" id=\"b\">".data = .error (dupMsg n) := by
  refine (c6_duplicate_attribute.1 "<div id=\"a\" id=\"b\">".data (by decide)).mpr
    ⟨" id=\"a\" id=\"b\"".data, by decide, by decide⟩

theorem leadsCI_self : ∀ p x : List Char, leadsCI p (p ++ x) = true := by
  intro p
  induction p with
  | nil => intro x; rfl
  | cons a as ih =>
    intro x
    simp only [List.cons_append, leadsCI, List.append_eq, ih x, Bool.and_true,
      beq_self_eq_true]

theorem litCI_self (p x : List Char) : litCI p (p ++ x) = some x := by
  simp [litCI, leadsCI_self, List.drop_left]

theorem ws_not_alpha {c : Char} (h : isWs c = true) : isAlphaAZ c = false := by
  simp only [isWs, Bool.or_eq_true, beq_iff_eq] at h
  rcases h with ((((h | h) | h) | h) | h) | h <;> subst h <;> decide

theorem cls1_stop {p : Char → Bool} {tok z : List Char}
    (hne : tok ≠ []) (hall : ∀ c ∈ tok, p c = true)
    (hz : ∀ d zs, z = d :: zs → p d = false) :
    cls1 p (tok ++ z) = some (tok, z) := by
  cases tok with
  | nil => exact absurd rfl hne
  | cons c t =>
    have hsub : ∀ x ∈ t, p x = true := fun x hx => hall x (by simp [hx])
    simp only [List.cons_append, cls1, hall c (by simp), if_true]
    rw [takeWhile_app_all hsub, dropWhile_app_all hsub]
    cases z with
    | nil => simp
    | cons d zs => simp [List.takeWhile_cons, List.dropWhile_cons, hz d zs rfl]

/-- Completeness of the final-guard matcher on a whitespace-preceded
quoted event-handler attribute. -/
theorem guardM_complete {w : Char} {ev ws1 ws2 v : List Char} {q : Char}
    (hw : isWs w = true) (hev : ev ≠ [])
    (heva : ∀ c ∈ ev, isAlphaAZ c = true)
    (h1 : ∀ c ∈ ws1, isWs c = true) (h2 : ∀ c ∈ ws2, isWs c = true)
    (hq : q = '"' ∨ q = apos) :
    guardM (w :: ("on".data ++ (ev ++ (ws1 ++ '=' :: (ws2 ++ q :: v)))))
      = some () := by
  have hqws : isWs q = false := by
    rcases hq with rfl | rfl <;> decide
  have hcls : cls1 isAlphaAZ (ev ++ (ws1 ++ '=' :: (ws2 ++ q :: v)))
      = some (ev, ws1 ++ '=' :: (ws2 ++ q :: v)) := by
    apply cls1_stop hev heva
    intro d zs hdz
    cases ws1 with
    | nil =>
      simp only [List.nil_append] at hdz
      have : d = '=' := (List.cons.inj hdz).1.symm
      rw [this]
      decide
    | cons e es =>
      simp only [List.cons_append] at hdz
      have hde : d = e := (List.cons.inj hdz).1.symm
      rw [hde]
      exact ws_not_alpha (h1 e (by simp))
  simp only [guardM, hw, if_true]
  simp only [Option.bind_eq_bind, Option.some_bind]
  rw [litCI_self]
  simp only [Option.bind_eq_bind, Option.some_bind]
  rw [hcls]
  simp only [Option.bind_eq_bind, Option.some_bind]
  rw [show wsStar (ws1 ++ '=' :: (ws2 ++ q :: v))
      = '=' :: (ws2 ++ q :: v) from by
    unfold wsStar
    rw [dropWhile_app_all h1]
    simp [List.dropWhile_cons, show isWs '=' = false from by decide]]
  rw [chr_self]
  simp only [Option.bind_eq_bind, Option.some_bind]
  rw [show wsStar (ws2 ++ q :: v) = q :: v from by
    unfold wsStar
    rw [dropWhile_app_all h2]
    simp [List.dropWhile_cons, hqws]]
  rcases hq with rfl | rfl <;> simp

/-- C5 (amended): after the event-binding conversions, `sanitizeHtml`
raises the inline-handler error for every markup in which a residual
quoted event-handler attribute is preceded by a whitespace character —
the guard `\son[a-z]+\s*=\s*["']/i` requires that whitespace, so an
`on…="…"` attribute abutting the previous attribute's closing quote (see
the counterexample) escapes detection. -/
theorem c5_inline_handler_guard :
    ∀ (html u : List Char) (w : Char) (ev ws1 ws2 v : List Char) (q : Char),
      isWs w = true → ev ≠ [] → (∀ c ∈ ev, isAlphaAZ c = true) →
      (∀ c ∈ ws1, isWs c = true) → (∀ c ∈ ws2, isWs c = true) →
      (q = '"' ∨ q = apos) →
      afterEventPasses html
        = u ++ w :: ("on".data ++ (ev ++ (ws1 ++ '=' :: (ws2 ++ q :: v)))) →
      sanitizeHtml html = .error inlineMsg := by
  intro html u w ev ws1 ws2 v q hw hev heva h1 h2 hq hdec
  have hg : guardTest (afterEventPasses html) = true := by
    rw [hdec, guardTest]
    exact findSplit_isSome (guardM_complete hw hev heva h1 h2 hq)
  rw [sanitizeHtml_eq, if_pos (by rw [hg])]

/-- Counterexample to C5 as stated: this markup still carries the quoted
inline handler `onclick="a b"` after the conversion passes (the attribute
abuts the previous attribute's closing quote, so no whitespace precedes
it), yet `sanitizeHtml` succeeds instead of raising the inline-handler
error. -/
theorem c5_counterexample :
    sanitizeHtml "<div class=\"x\"onclick=\"a b\"></div>".data
        = .ok ("<div class=\"x\"onclick=\"a b\"></div>".data, false)
    ∧ afterEventPasses "<div class=\"x\"onclick=\"a b\"></div>".data
        = "<div class=\"x\"".data ++ "onclick=\"a b\"></div>".data := by
  exact ⟨by decide, by decide⟩

/-- Closed instance of `c5_inline_handler_guard` at a markup with a
whitespace-preceded residual quoted handler. -/
theorem c5_inline_handler_guard_witness :
    sanitizeHtml "<i onx=\"a b\"></i>".data = .error inlineMsg := by
  exact c5_inline_handler_guard "<i onx=\"a b\"></i>".data "<i".data ' '
    "x".data [] [] "a b\"></i>".data '"' (by decide) (by decide) (by decide)
    (by decide) (by decide) (Or.inl rfl) (by decide)

/-- Closed instance of `c3_ensure_handler_stubs`: the missing-header error
and the stub insertion, both at concrete inputs. -/
theorem c3_ensure_handler_stubs_witness :
    ensureHandlerStubs "let x = 1;".data ["save".data] = .error stubsErrMsg
    ∧ ∃ u v, ensureHandlerStubs scenarioJs ["save".data]
        = .ok (u ++ stubFor "save".data ++ v) := by
  refine ⟨c3_ensure_handler_stubs.1 "let x = 1;".data ["save".data] (by decide), ?_⟩
  exact c3_ensure_handler_stubs.2.1 scenarioJs ["save".data] "save".data
    ("import ".data ++ [obr] ++ " LightningElement ".data ++ [cbr]
      ++ " from ".data ++ [apos] ++ "lwc".data ++ [apos] ++ ";".data ++ [nlc])
    ("export default class Preview extends LightningElement ".data ++ [obr])
    [cbr] (by decide) (by decide) (by decide)

/-!  Suffix-kill infrastructure: ways to show a matcher fails on every
suffix of a string, from a soundness property of the matcher and a cheap
global property of the string.  -/

theorem noFollow_tail {t bad : Char → Bool} {c : Char} {l : List Char}
    (h : noFollow t bad (c :: l) = true) : noFollow t bad l = true := by
  cases l with
  | nil => rfl
  | cons w rest =>
    simp only [noFollow, Bool.and_eq_true] at h
    exact h.2

theorem noFollow_spot {t bad : Char → Bool} :
    ∀ (a : List Char) {c w : Char} {b : List Char},
      noFollow t bad (a ++ c :: w :: b) = true → t c = true → bad w = false := by
  intro a
  induction a with
  | nil =>
    intro c w b hnf htc
    simp only [List.nil_append, noFollow, Bool.and_eq_true] at hnf
    have h1 := hnf.1
    simp only [htc, Bool.not_true, Bool.false_or, Bool.not_eq_true'] at h1
    exact h1
  | cons d a ih =>
    intro c w b hnf htc
    simp only [List.cons_append] at hnf
    exact ih (noFollow_tail hnf) htc

theorem noFollow_seg {t bad : Char → Bool} {A B : List Char}
    (hA : ∀ c ∈ A, t c = false) (hB : noFollow t bad B = true) :
    noFollow t bad (A ++ B) = true := by
  induction A with
  | nil => simpa using hB
  | cons d A ih =>
    have hrest := ih (fun c hc => hA c (by simp [hc]))
    rw [List.cons_append]
    cases hAB : A ++ B with
    | nil => rfl
    | cons w rest =>
      simp only [noFollow, Bool.and_eq_true]
      refine ⟨?_, ?_⟩
      · rw [hA d (by simp), Bool.not_false, Bool.true_or]
      · rw [← hAB]; exact hrest

theorem noFollow_cons_trig {t bad : Char → Bool} {c d : Char} {l : List Char}
    (hd : bad d = false) (hrest : noFollow t bad (d :: l) = true) :
    noFollow t bad (c :: d :: l) = true := by
  simp only [noFollow, Bool.and_eq_true]
  exact ⟨by rw [hd]; simp, hrest⟩

/-- A matcher whose every success contains a `t`-character fails on every
suffix of a string without one. -/
theorem memKill {m : List Char → Option α} {t : Char → Bool}
    (hsound : ∀ v r, m v = some r → ∃ c, c ∈ v ∧ t c = true)
    {s : List Char} (hs : ∀ c ∈ s, t c = false) :
    ∀ u v, s = u ++ v → m v = none := by
  intro u v huv
  cases hmv : m v with
  | none => rfl
  | some r =>
    obtain ⟨c, hcv, htc⟩ := hsound v r hmv
    have hc : c ∈ s := by rw [huv]; exact List.mem_append_right u hcv
    rw [hs c hc] at htc
    cases htc

/-- A matcher whose every success exhibits a `t`-character followed by a
`bad` character fails on every suffix of a `noFollow` string. -/
theorem pairKill {m : List Char → Option α} {t bad : Char → Bool}
    (hsound : ∀ v r, m v = some r →
      ∃ a c w b, v = a ++ c :: w :: b ∧ t c = true ∧ bad w = true)
    {s : List Char} (hs : noFollow t bad s = true) :
    ∀ u v, s = u ++ v → m v = none := by
  intro u v huv
  cases hmv : m v with
  | none => rfl
  | some r =>
    obtain ⟨a, c, w, b, hv, htc, hbw⟩ := hsound v r hmv
    have hdec : s = (u ++ a) ++ c :: w :: b := by
      rw [huv, hv, List.append_assoc]
    rw [hdec] at hs
    rw [noFollow_spot (u ++ a) hs htc] at hbw
    cases hbw

/-- A head-triggered matcher fails on any suffix that starts strictly
inside a region free of trigger characters. -/
theorem region_trigger_kill {m : List Char → Option α} {trig : Char → Bool}
    (hsound : ∀ c cs r, m (c :: cs) = some r → trig c = true)
    {P t : List Char} (hP : ∀ c ∈ P, trig c = false) :
    ∀ u v, P ++ t = u ++ v → t.length < v.length → m v = none := by
  intro u v huv hlen
  rcases suffix_split huv with ⟨w, hw1, hw2⟩ | ⟨w, hw1, hw2⟩
  · cases w with
    | nil =>
      rw [hw2, List.nil_append] at hlen
      omega
    | cons c w' =>
      have hc : c ∈ P := by rw [hw1]; simp
      cases hmv : m v with
      | none => rfl
      | some r =>
        rw [hw2, List.cons_append] at hmv
        have htc := hsound c _ r hmv
        rw [hP c hc] at htc
        cases htc
  · have : t.length = w.length + v.length := by rw [hw2, List.length_append]
    omega

/-- A unique occurrence of a character pins down any decomposition at
that character. -/
theorem unique_char_split {T : Char} {Y1 Y2 a b : List Char}
    (h1 : T ∉ Y1) (h2 : T ∉ Y2)
    (he : Y1 ++ T :: Y2 = a ++ T :: b) : a = Y1 ∧ b = Y2 := by
  rcases suffix_split he with ⟨w, hw1, hw2⟩ | ⟨w, hw1, hw2⟩
  · cases w with
    | nil =>
      simp only [List.append_nil] at hw1
      simp only [List.nil_append] at hw2
      exact ⟨hw1.symm, (List.cons.inj hw2).2⟩
    | cons c w' =>
      simp only [List.cons_append] at hw2
      have hc : c = T := ((List.cons.inj hw2).1).symm
      have hmem : c ∈ Y1 := by rw [hw1]; simp
      rw [hc] at hmem
      exact absurd hmem h1
  · cases w with
    | nil =>
      simp only [List.append_nil] at hw1
      simp only [List.nil_append] at hw2
      exact ⟨hw1, ((List.cons.inj hw2).2).symm⟩
    | cons c w' =>
      simp only [List.cons_append] at hw2
      obtain ⟨hT, hY2⟩ := List.cons.inj hw2
      have hmem : T ∈ Y2 := by rw [hY2]; simp
      exact absurd hmem h2

/-- Trimming is the identity on a string with non-whitespace ends. -/
theorem trimWs_sandwich {a z : Char} {M : List Char}
    (ha : isWs a = false) (hz : isWs z = false) :
    trimWs (a :: (M ++ [z])) = a :: (M ++ [z]) := by
  unfold trimWs
  have h1 : List.dropWhile isWs (a :: (M ++ [z])) = a :: (M ++ [z]) := by
    simp [List.dropWhile_cons, ha]
  rw [h1]
  have h2 : (a :: (M ++ [z])).reverse = z :: (M.reverse ++ [a]) := by
    simp
  rw [h2]
  have h3 : List.dropWhile isWs (z :: (M.reverse ++ [a]))
      = z :: (M.reverse ++ [a]) := by
    simp [List.dropWhile_cons, hz]
  rw [h3, ← h2, List.reverse_reverse]

/-!  The rest returned by each combinator is a suffix of its input, so a
character consumed later in a matcher chain is a member of the original
input.  -/

theorem chr_sfx {c : Char} {s r : List Char} (h : chr c s = some r) :
    r <:+ s := by
  rw [chr_sound h]
  exact List.suffix_cons c r

theorem lit_sfx {p s r : List Char} (h : lit p s = some r) : r <:+ s := by
  unfold lit at h
  split at h
  · exact (Option.some.inj h) ▸ List.drop_suffix p.length s
  · cases h

theorem litCI_sfx {p s r : List Char} (h : litCI p s = some r) : r <:+ s := by
  unfold litCI at h
  split at h
  · exact (Option.some.inj h) ▸ List.drop_suffix p.length s
  · cases h

theorem wsStar_sfx (s : List Char) : wsStar s <:+ s :=
  List.dropWhile_suffix isWs

theorem wsPlus_sfx {s r : List Char} (h : wsPlus s = some r) : r <:+ s := by
  cases s with
  | nil => cases h
  | cons c cs =>
    simp only [wsPlus] at h
    by_cases hc : isWs c = true
    · rw [if_pos hc] at h
      have hr : r = cs.dropWhile isWs := (Option.some.inj h).symm
      rw [hr]
      exact (List.dropWhile_suffix isWs).trans (List.suffix_cons c cs)
    · rw [if_neg hc] at h; cases h

theorem cls1_sfx {p : Char → Bool} {s tok r : List Char}
    (h : cls1 p s = some (tok, r)) : r <:+ s := by
  cases s with
  | nil => cases h
  | cons c cs =>
    simp only [cls1] at h
    by_cases hc : p c = true
    · rw [if_pos hc] at h
      have hr : r = cs.dropWhile p :=
        (congrArg Prod.snd (Option.some.inj h)).symm
      rw [hr]
      exact (List.dropWhile_suffix p).trans (List.suffix_cons c cs)
    · rw [if_neg hc] at h; cases h

theorem identTok_sfx {s tok r : List Char}
    (h : identTok s = some (tok, r)) : r <:+ s := by
  cases s with
  | nil => cases h
  | cons c cs =>
    simp only [identTok] at h
    by_cases hc : isIdentStart c = true
    · rw [if_pos hc] at h
      have hr : r = cs.dropWhile isWordC :=
        (congrArg Prod.snd (Option.some.inj h)).symm
      rw [hr]
      exact (List.dropWhile_suffix isWordC).trans (List.suffix_cons c cs)
    · rw [if_neg hc] at h; cases h

theorem parenOpt_sfx {s r : List Char} (h : parenOpt s = some r) : r <:+ s := by
  cases s with
  | nil =>
    simp only [parenOpt] at h
    have hr : r = [] := (Option.some.inj h).symm
    rw [hr]
  | cons c cs =>
    simp only [parenOpt] at h
    by_cases hc : (c == '(') = true
    · rw [if_pos hc] at h
      exact ((chr_sfx h).trans (wsStar_sfx cs)).trans (List.suffix_cons c cs)
    · rw [if_neg hc] at h
      have hr : r = c :: cs := (Option.some.inj h).symm
      rw [hr]

theorem seekCI_sfx {p : List Char} :
    ∀ {s r : List Char}, seekCI p s = some r → r <:+ s := by
  intro s
  induction s with
  | nil => intro r h; cases h
  | cons c cs ih =>
    intro r h
    simp only [seekCI] at h
    by_cases hc : leadsCI p (c :: cs) = true
    · rw [if_pos hc] at h
      have hr : r = (c :: cs).drop p.length := (Option.some.inj h).symm
      rw [hr]
      exact List.drop_suffix p.length (c :: cs)
    · rw [if_neg hc] at h
      exact ((ih h).trans (List.suffix_cons c cs))

theorem bchk_sfx {s r : List Char} (h : bchk s = some r) : r <:+ s := by
  cases s with
  | nil =>
    have hr : r = [] := (Option.some.inj h).symm
    rw [hr]
  | cons c cs =>
    simp only [bchk] at h
    by_cases hc : isWordC c = true
    · rw [if_pos hc] at h; cases h
    · rw [if_neg hc] at h
      have hr : r = c :: cs := (Option.some.inj h).symm
      rw [hr]

/-!  Small facts about the character classes and tokens.  -/

theorem lower_facts {c : Char} (h : isLowerAZ c = true) : 'a' ≤ c ∧ c ≤ 'z' := by
  simpa [isLowerAZ, Bool.and_eq_true, decide_eq_true_eq] using h

theorem lower_lowC {c : Char} (h : isLowerAZ c = true) : lowC c = c := by
  unfold lowC
  rw [if_neg]
  intro hu
  simp only [isUpperAZ, Bool.and_eq_true, decide_eq_true_eq] at hu
  have h2 := (lower_facts h).1
  have : 'a' ≤ 'Z' := le_trans h2 hu.2
  exact absurd this (by decide)

theorem lower_ne_sym {c x : Char} (h : isLowerAZ c = true)
    (hx : x < 'a' ∨ 'z' < x) : (c == x) = false := by
  obtain ⟨h1, h2⟩ := lower_facts h
  rw [beq_eq_false_iff_ne]
  rintro rfl
  rcases hx with hx | hx
  · exact absurd h1 (not_le.mpr hx)
  · exact absurd h2 (not_le.mpr hx)

theorem cls1_head {p : Char → Bool} {c : Char} {cs tok r : List Char}
    (h : cls1 p (c :: cs) = some (tok, r)) : p c = true := by
  simp only [cls1] at h
  by_cases hc : p c = true
  · exact hc
  · rw [if_neg hc] at h; cases h

theorem cls1_split {p : Char → Bool} {s tok r : List Char}
    (h : cls1 p s = some (tok, r)) :
    s = tok ++ r ∧ tok ≠ [] ∧ ∀ c ∈ tok, p c = true := by
  cases s with
  | nil => cases h
  | cons c cs =>
    simp only [cls1] at h
    by_cases hc : p c = true
    · rw [if_pos hc] at h
      have hinj := Option.some.inj h
      have htok : tok = c :: cs.takeWhile p := (congrArg Prod.fst hinj).symm
      have hr : r = cs.dropWhile p := (congrArg Prod.snd hinj).symm
      subst htok; subst hr
      refine ⟨?_, by simp, ?_⟩
      · simp [List.takeWhile_append_dropWhile]
      · intro d hd
        rcases List.mem_cons.mp hd with rfl | hd
        · exact hc
        · exact List.mem_takeWhile_imp hd
    · rw [if_neg hc] at h; cases h

theorem identTok_split {s tok r : List Char} (h : identTok s = some (tok, r)) :
    s = tok ++ r := by
  cases s with
  | nil => cases h
  | cons c cs =>
    simp only [identTok] at h
    by_cases hc : isIdentStart c = true
    · rw [if_pos hc] at h
      have hinj := Option.some.inj h
      have htok : tok = c :: cs.takeWhile isWordC :=
        (congrArg Prod.fst hinj).symm
      have hr : r = cs.dropWhile isWordC := (congrArg Prod.snd hinj).symm
      subst htok; subst hr
      simp [List.takeWhile_append_dropWhile]
    · rw [if_neg hc] at h; cases h

theorem wsPlus_head {s r : List Char} (h : wsPlus s = some r) :
    ∃ w t, s = w :: t ∧ isWs w = true := by
  cases s with
  | nil => cases h
  | cons c cs =>
    simp only [wsPlus] at h
    by_cases hc : isWs c = true
    · exact ⟨c, cs, rfl, hc⟩
    · rw [if_neg hc] at h; cases h

theorem lit_leads {p s r : List Char} (h : lit p s = some r) :
    leads p s = true := by
  unfold lit at h
  by_cases hl : leads p s = true
  · exact hl
  · rw [if_neg hl] at h; cases h

/-!  Soundness lemmas: what every successful match implies about the
input.  Each feeds one of the generic suffix-kill lemmas.  -/

/-- A script match starts with `<` followed by a letter folding to `s`. -/
theorem scriptM_pairS {v : List Char} {r : List Char × List Char}
    (h : scriptM v = some r) :
    ∃ a c w b, v = a ++ c :: w :: b
      ∧ (lowC c == '<') = true ∧ (lowC w == 's') = true := by
  simp only [scriptM, Option.bind_eq_bind, Option.bind_eq_some] at h
  obtain ⟨s1, h1, _⟩ := h
  unfold litCI at h1
  by_cases hl : leadsCI "<script".data v = true
  · rw [show "<script".data = '<' :: 's' :: "cript".data from rfl] at hl
    cases v with
    | nil => simp [leadsCI] at hl
    | cons c0 v1 =>
      cases v1 with
      | nil => simp [leadsCI] at hl
      | cons c1 v2 =>
        simp only [leadsCI, Bool.and_eq_true] at hl
        obtain ⟨ha, hb, _⟩ := hl
        refine ⟨[], c0, c1, v2, rfl, ?_, ?_⟩
        · rw [beq_iff_eq] at ha ⊢
          exact ha.symm.trans (by decide)
        · rw [beq_iff_eq] at hb ⊢
          exact hb.symm.trans (by decide)
  · rw [if_neg hl] at h1; cases h1

/-- A static-then-dynamic class match contains a quote followed by
whitespace (the closing quote of the static part before `\s+`). -/
theorem clsSDM_pairS {v : List Char} {r : List Char × List Char}
    (h : clsSDM v = some r) :
    ∃ a c w b, v = a ++ c :: w :: b
      ∧ (c == '"') = true ∧ isWs w = true := by
  simp only [clsSDM, Option.bind_eq_bind, Option.bind_eq_some] at h
  obtain ⟨s1, h1, ⟨tok, s2⟩, h2, s3, h3, s4, h4, _⟩ := h
  dsimp only at h3 h4
  obtain ⟨w, t, hs3, hw⟩ := wsPlus_head h4
  refine ⟨"class=\"".data ++ tok, '"', w, t, ?_, by decide, hw⟩
  rw [lit_sound h1, (cls1_split h2).1, chr_sound h3, hs3]
  simp [List.append_assoc]

theorem contDS_head {s : List Char} {r : List Char × Char × List Char}
    (h : contDS s = some r) : ∃ w t, s = w :: t ∧ isWs w = true := by
  simp only [contDS, Option.bind_eq_bind, Option.bind_eq_some] at h
  obtain ⟨s1, h1, _⟩ := h
  exact wsPlus_head h1

theorem lazyBrace2_pairS :
    ∀ {s : List Char} {q : List Char × (List Char × Char × List Char)},
      lazyBrace2 s = some q →
      ∃ a w t, s = a ++ cbr :: w :: t ∧ isWs w = true := by
  intro s
  induction s with
  | nil => intro q h; cases h
  | cons c cs ih =>
    intro q h
    simp only [lazyBrace2] at h
    by_cases h0 : (c == '\n' || c == '\r') = true
    · rw [if_pos h0] at h; cases h
    · rw [if_neg h0] at h
      cases cs with
      | nil => cases h
      | cons x rest =>
        dsimp only at h
        by_cases hx : (x == cbr) = true
        · rw [if_pos hx] at h
          cases hc : contDS rest with
          | some r0 =>
            obtain ⟨w, t, hrt, hw⟩ := contDS_head hc
            refine ⟨[c], w, t, ?_, hw⟩
            rw [hrt, beq_iff_eq.mp hx]
            rfl
          | none =>
            rw [hc] at h
            rcases Option.map_eq_some'.mp h with ⟨q', hq', _⟩
            obtain ⟨a, w, t, hsp, hw⟩ := ih hq'
            exact ⟨c :: a, w, t, by rw [hsp]; rfl, hw⟩
        · rw [if_neg hx] at h
          rcases Option.map_eq_some'.mp h with ⟨q', hq', _⟩
          obtain ⟨a, w, t, hsp, hw⟩ := ih hq'
          exact ⟨c :: a, w, t, by rw [hsp]; rfl, hw⟩

/-- A dynamic-then-static class match contains a closing brace followed
by whitespace (the `}` of the dynamic part before `\s+`). -/
theorem clsDSM_pairS {v : List Char} {r : List Char × List Char}
    (h : clsDSM v = some r) :
    ∃ a c w b, v = a ++ c :: w :: b
      ∧ (c == cbr) = true ∧ isWs w = true := by
  simp only [clsDSM, Option.bind_eq_bind, Option.bind_eq_some] at h
  obtain ⟨s1, h1, ⟨dy, st, tc, s6⟩, h2, _⟩ := h
  obtain ⟨a, w, t, hsp, hw⟩ := lazyBrace2_pairS h2
  refine ⟨("class=".data ++ [obr]) ++ a, cbr, w, t, ?_, by decide, hw⟩
  rw [lit_sound h1, hsp]
  simp [List.append_assoc]

theorem evtAtM_head {v : List Char} {r : List Char × List Char}
    (h : evtAtM v = some r) : ∃ t, v = '@' :: t := by
  simp only [evtAtM, Option.bind_eq_bind, Option.bind_eq_some] at h
  obtain ⟨s1, h1, _⟩ := h
  exact ⟨s1, chr_sound h1⟩

theorem evtParenM_head {v : List Char} {r : List Char × List Char}
    (h : evtParenM v = some r) : ∃ t, v = '(' :: t := by
  simp only [evtParenM, Option.bind_eq_bind, Option.bind_eq_some] at h
  obtain ⟨s1, h1, _⟩ := h
  exact ⟨s1, chr_sound h1⟩

/-- A `(event)` match has its `(` followed by whitespace or a lowercase
letter. -/
theorem evtParenM_pairS {v : List Char} {r : List Char × List Char}
    (h : evtParenM v = some r) :
    ∃ a c w b, v = a ++ c :: w :: b ∧ (c == '(') = true
      ∧ (isWs w || isLowerAZ w) = true := by
  simp only [evtParenM, Option.bind_eq_bind, Option.bind_eq_some] at h
  obtain ⟨s1, h1, ⟨ev, s2⟩, h2, _⟩ := h
  cases s1 with
  | nil => rw [show wsStar [] = [] from rfl] at h2; cases h2
  | cons w t =>
    refine ⟨[], '(', w, t, by rw [chr_sound h1]; rfl, by decide, ?_⟩
    by_cases hw : isWs w = true
    · rw [hw]; rfl
    · have hws : wsStar (w :: t) = w :: t := by
        simp [wsStar, List.dropWhile_cons, hw]
      rw [hws] at h2
      rw [cls1_head h2, Bool.or_true]

theorem evtQuotParenM_head {v : List Char} {r : List Char × List Char}
    (h : evtQuotParenM v = some r) : ∃ t, v = 'o' :: 'n' :: t := by
  simp only [evtQuotParenM, Option.bind_eq_bind, Option.bind_eq_some] at h
  obtain ⟨s1, h1, _⟩ := h
  exact ⟨s1, by rw [lit_sound h1]; rfl⟩

theorem evtQuotM_head {v : List Char} {r : List Char × List Char}
    (h : evtQuotM v = some r) : ∃ t, v = 'o' :: 'n' :: t := by
  simp only [evtQuotM, Option.bind_eq_bind, Option.bind_eq_some] at h
  obtain ⟨s1, h1, _⟩ := h
  exact ⟨s1, by rw [lit_sound h1]; rfl⟩

theorem evtThisM_head {v : List Char} {r : List Char × List Char}
    (h : evtThisM v = some r) : ∃ t, v = 'o' :: 'n' :: t := by
  simp only [evtThisM, Option.bind_eq_bind, Option.bind_eq_some] at h
  obtain ⟨s1, h1, _⟩ := h
  exact ⟨s1, by rw [lit_sound h1]; rfl⟩

theorem evtQuotParenM_memQ {v : List Char} {r : List Char × List Char}
    (h : evtQuotParenM v = some r) : '"' ∈ v := by
  simp only [evtQuotParenM, Option.bind_eq_bind, Option.bind_eq_some] at h
  obtain ⟨s1, h1, ⟨ev, s2⟩, h2, s3, h3, s4, h4, _⟩ := h
  dsimp only at h3 h4
  have hq : '"' ∈ wsStar s3 := by rw [chr_sound h4]; simp
  have hsf : wsStar s3 <:+ v :=
    ((wsStar_sfx s3).trans ((chr_sfx h3).trans ((wsStar_sfx s2).trans
      ((cls1_sfx h2).trans (lit_sfx h1)))))
  exact hsf.subset hq

theorem evtQuotM_memQ {v : List Char} {r : List Char × List Char}
    (h : evtQuotM v = some r) : '"' ∈ v := by
  simp only [evtQuotM, Option.bind_eq_bind, Option.bind_eq_some] at h
  obtain ⟨s1, h1, ⟨ev, s2⟩, h2, s3, h3, s4, h4, _⟩ := h
  dsimp only at h3 h4
  have hq : '"' ∈ wsStar s3 := by rw [chr_sound h4]; simp
  have hsf : wsStar s3 <:+ v :=
    ((wsStar_sfx s3).trans ((chr_sfx h3).trans ((wsStar_sfx s2).trans
      ((cls1_sfx h2).trans (lit_sfx h1)))))
  exact hsf.subset hq

/-- An `on…={this.…}` match contains an opening brace after which,
beyond optional whitespace, the literal `this.` follows. -/
theorem evtThisM_strong {v : List Char} {r : List Char × List Char}
    (h : evtThisM v = some r) :
    ∃ a b, v = a ++ obr :: b ∧ leads "this.".data (wsStar b) = true := by
  simp only [evtThisM, Option.bind_eq_bind, Option.bind_eq_some] at h
  obtain ⟨s1, h1, ⟨ev, s2⟩, h2, s3, h3, s4, h4, s5, h5, _⟩ := h
  dsimp only at h3 h4 h5
  have hl : leads "this.".data (wsStar s4) = true := lit_leads h5
  have h2s := (cls1_split h2).1
  have e3 := chr_sound h3
  have e4 := chr_sound h4
  refine ⟨"on".data ++ ev ++ s2.takeWhile isWs ++ ['=']
    ++ s3.takeWhile isWs, s4, ?_, hl⟩
  rw [lit_sound h1, h2s]
  have hs2 : s2 = s2.takeWhile isWs ++ '=' :: s3 := by
    conv_lhs => rw [← List.takeWhile_append_dropWhile isWs s2]
    rw [show s2.dropWhile isWs = wsStar s2 from rfl, e3]
  have hs3 : s3 = s3.takeWhile isWs ++ obr :: s4 := by
    conv_lhs => rw [← List.takeWhile_append_dropWhile isWs s3]
    rw [show s3.dropWhile isWs = wsStar s3 from rfl, e4]
  conv_lhs => rw [hs2]
  conv_lhs => rw [hs3]
  simp [List.append_assoc]

/-- A guard match contains a quote character. -/
theorem guardM_memQ {v : List Char} {r : Unit} (h : guardM v = some r) :
    ∃ q, q ∈ v ∧ (q == '"' || q == apos) = true := by
  cases v with
  | nil => exact absurd h (by simp [guardM])
  | cons c cs =>
    by_cases hc : isWs c = true
    · simp only [guardM, hc, if_true, Option.bind_eq_bind, Option.some_bind,
        Option.bind_eq_some] at h
      obtain ⟨s2, h2, ⟨u, s3⟩, h3, s4, h4, hfin⟩ := h
      dsimp only at h3 h4 hfin
      cases hq : wsStar s4 with
      | nil => rw [hq] at hfin; cases hfin
      | cons q qs =>
        rw [hq] at hfin
        dsimp only at hfin
        by_cases hcond : (q == '"' || q == apos) = true
        · refine ⟨q, ?_, hcond⟩
          have hmem : q ∈ wsStar s4 := by rw [hq]; simp
          have hsf : wsStar s4 <:+ cs :=
            (wsStar_sfx s4).trans ((chr_sfx h4).trans ((wsStar_sfx s3).trans
              ((cls1_sfx h3).trans (litCI_sfx h2))))
          exact List.mem_cons_of_mem c (hsf.subset hmem)
        · rw [if_neg hcond] at hfin; cases hfin
    · exact absurd h (by simp [guardM, hc])

/-- A successful attribute-name lookahead saw an `=` somewhere in the
candidate run or its continuation. -/
theorem attrTry_mem :
    ∀ {accRev rest : List Char} {n r : List Char},
      attrTry accRev rest = some (n, r) → '=' ∈ accRev ∨ '=' ∈ rest := by
  intro accRev
  induction accRev with
  | nil => intro rest n r h; cases h
  | cons a accRev ih =>
    intro rest n r h
    simp only [attrTry] at h
    cases hws : wsStar rest with
    | nil =>
      rw [hws] at h
      rcases ih h with hm | hm
      · exact Or.inl (List.mem_cons_of_mem a hm)
      · rcases List.mem_cons.mp hm with heq | hm
        · exact Or.inl (by rw [heq]; simp)
        · exact Or.inr hm
    | cons e es =>
      rw [hws] at h
      dsimp only at h
      by_cases he : (e == '=') = true
      · rw [if_pos he] at h
        refine Or.inr ?_
        have : e ∈ wsStar rest := by rw [hws]; simp
        rw [beq_iff_eq.mp he] at this
        exact (wsStar_sfx rest).subset this
      · rw [if_neg he] at h
        rcases ih h with hm | hm
        · exact Or.inl (List.mem_cons_of_mem a hm)
        · rcases List.mem_cons.mp hm with heq | hm
          · exact Or.inl (by rw [heq]; simp)
          · exact Or.inr hm

/-- A successful attribute-name match saw an `=` in the input. -/
theorem attrNameM_memEq {v : List Char} {r : List Char × List Char}
    (h : attrNameM v = some r) : '=' ∈ v := by
  cases v with
  | nil => cases h
  | cons c cs =>
    simp only [attrNameM] at h
    by_cases hc : isWordC c = true
    · rw [if_pos hc] at h
      obtain ⟨n, r0⟩ := r
      rcases attrTry_mem h with hm | hm
      · rw [List.mem_reverse] at hm
        rcases List.mem_cons.mp hm with heq | hm
        · rw [← heq]; simp
        · exact List.mem_cons_of_mem c ((List.takeWhile_prefix isAttrNameC).subset hm)
      · exact List.mem_cons_of_mem c ((List.dropWhile_suffix isAttrNameC).subset hm)
    · rw [if_neg hc] at h; cases h

/-!  Consumption: every successful event matcher leaves a strictly
shorter rest, so global replacement fuel suffices.  -/

theorem evtAtM_consume {v : List Char} {r rest : List Char}
    (h : evtAtM v = some (r, rest)) : rest.length < v.length := by
  simp only [evtAtM, Option.bind_eq_bind, Option.bind_eq_some] at h
  obtain ⟨s1, h1, ⟨ev, s2⟩, h2, s3, h3, s4, h4, ⟨hd, s5⟩, h5, s6, h6, s7, h7,
    hfin⟩ := h
  dsimp only at h2 h3 h4 h5 h6 h7 hfin
  have hrest : s7 = rest := congrArg Prod.snd (Option.some.inj hfin)
  have hch : s7 <:+ s1 :=
    (chr_sfx h7).trans ((wsStar_sfx s6).trans ((parenOpt_sfx h6).trans
      ((wsStar_sfx s5).trans ((identTok_sfx h5).trans ((chr_sfx h4).trans
        ((wsStar_sfx s3).trans ((chr_sfx h3).trans ((wsStar_sfx s2).trans
          ((cls1_sfx h2).trans (wsStar_sfx s1))))))))))
  have hlen : s7.length ≤ s1.length := hch.length_le
  rw [chr_sound h1, ← hrest]
  simp only [List.length_cons]
  omega

theorem evtParenM_consume {v : List Char} {r rest : List Char}
    (h : evtParenM v = some (r, rest)) : rest.length < v.length := by
  simp only [evtParenM, Option.bind_eq_bind, Option.bind_eq_some] at h
  obtain ⟨s1, h1, ⟨ev, s2⟩, h2, s3, h3, s4, h4, s5, h5, ⟨hd, s6⟩, h6, s7, h7,
    s8, h8, hfin⟩ := h
  dsimp only at h2 h3 h4 h5 h6 h7 h8 hfin
  have hrest : s8 = rest := congrArg Prod.snd (Option.some.inj hfin)
  have hch : s8 <:+ s1 :=
    (chr_sfx h8).trans ((wsStar_sfx s7).trans ((parenOpt_sfx h7).trans
      ((wsStar_sfx s6).trans ((identTok_sfx h6).trans ((chr_sfx h5).trans
        ((wsStar_sfx s4).trans ((chr_sfx h4).trans ((wsStar_sfx s3).trans
          ((chr_sfx h3).trans ((wsStar_sfx s2).trans ((cls1_sfx h2).trans
            (wsStar_sfx s1))))))))))))
  have hlen : s8.length ≤ s1.length := hch.length_le
  rw [chr_sound h1, ← hrest]
  simp only [List.length_cons]
  omega

theorem evtQuotParenM_consume {v : List Char} {r rest : List Char}
    (h : evtQuotParenM v = some (r, rest)) : rest.length < v.length := by
  simp only [evtQuotParenM, Option.bind_eq_bind, Option.bind_eq_some] at h
  obtain ⟨s1, h1, ⟨ev, s2⟩, h2, s3, h3, s4, h4, ⟨hd, s5⟩, h5, s6, h6, s7, h7,
    s8, h8, hfin⟩ := h
  dsimp only at h2 h3 h4 h5 h6 h7 h8 hfin
  have hrest : s8 = rest := congrArg Prod.snd (Option.some.inj hfin)
  have hch : s8 <:+ s1 :=
    (chr_sfx h8).trans ((wsStar_sfx s7).trans ((chr_sfx h7).trans
      ((wsStar_sfx s6).trans ((chr_sfx h6).trans ((wsStar_sfx s5).trans
        ((identTok_sfx h5).trans ((wsStar_sfx s4).trans ((chr_sfx h4).trans
          ((wsStar_sfx s3).trans ((chr_sfx h3).trans ((wsStar_sfx s2).trans
            ((cls1_sfx h2).trans (List.suffix_refl s1)))))))))))))
  have hlen : s8.length ≤ s1.length := hch.length_le
  have hv : v = 'o' :: 'n' :: s1 := by rw [lit_sound h1]; rfl
  rw [hv, ← hrest]
  simp only [List.length_cons]
  omega

theorem evtQuotM_consume {v : List Char} {r rest : List Char}
    (h : evtQuotM v = some (r, rest)) : rest.length < v.length := by
  simp only [evtQuotM, Option.bind_eq_bind, Option.bind_eq_some] at h
  obtain ⟨s1, h1, ⟨ev, s2⟩, h2, s3, h3, s4, h4, ⟨hd, s5⟩, h5, s6, h6, hfin⟩ := h
  dsimp only at h2 h3 h4 h5 h6 hfin
  have hrest : s6 = rest := congrArg Prod.snd (Option.some.inj hfin)
  have hch : s6 <:+ s1 :=
    (chr_sfx h6).trans ((wsStar_sfx s5).trans ((identTok_sfx h5).trans
      ((wsStar_sfx s4).trans ((chr_sfx h4).trans ((wsStar_sfx s3).trans
        ((chr_sfx h3).trans ((wsStar_sfx s2).trans ((cls1_sfx h2).trans
          (List.suffix_refl s1)))))))))
  have hlen : s6.length ≤ s1.length := hch.length_le
  have hv : v = 'o' :: 'n' :: s1 := by rw [lit_sound h1]; rfl
  rw [hv, ← hrest]
  simp only [List.length_cons]
  omega

theorem evtThisM_consume {v : List Char} {r rest : List Char}
    (h : evtThisM v = some (r, rest)) : rest.length < v.length := by
  simp only [evtThisM, Option.bind_eq_bind, Option.bind_eq_some] at h
  obtain ⟨s1, h1, ⟨ev, s2⟩, h2, s3, h3, s4, h4, s5, h5, ⟨hd, s6⟩, h6, s7, h7,
    hfin⟩ := h
  dsimp only at h2 h3 h4 h5 h6 h7 hfin
  have hrest : s7 = rest := congrArg Prod.snd (Option.some.inj hfin)
  have hch : s7 <:+ s1 :=
    (chr_sfx h7).trans ((wsStar_sfx s6).trans ((identTok_sfx h6).trans
      ((lit_sfx h5).trans ((wsStar_sfx s4).trans ((chr_sfx h4).trans
        ((wsStar_sfx s3).trans ((chr_sfx h3).trans ((wsStar_sfx s2).trans
          ((cls1_sfx h2).trans (List.suffix_refl s1))))))))))
  have hlen : s7.length ≤ s1.length := hch.length_le
  have hv : v = 'o' :: 'n' :: s1 := by rw [lit_sound h1]; rfl
  rw [hv, ← hrest]
  simp only [List.length_cons]
  omega

end LWCLab
